import Mathlib

/-!
Verification development for the GreenTok prompt-compression pipeline.

The Python sources under `prompt_compressor/` are shallowly embedded here:
strings are Lean `String`s processed as ASCII character lists (the pipeline
operates on ASCII prompt text; Python's `re` character classes `\w`, `\s`,
`[A-Z]` are embedded with their ASCII meaning), Python floats are embedded
exactly — importance scores as naturals in hundredths (every score constant
is an exact multiple of 0.01 and only `max` and order comparisons are applied
to scores), the reduction targets as exact fractions over 100 (the float
roundings involved never cross an integer boundary at the comparisons the
code makes) — and the external collaborators (tiktoken tokenizer,
sentence-transformers encoder) are abstracted as function parameters, per the
interface contracts they are used through.
-/

namespace GreenTok

/-! ## ASCII character classes mirroring Python `re` classes -/

/-- Python `\w` (ASCII): letters, digits, underscore. -/
def isWordChar (c : Char) : Bool := c.isAlphanum || c = '_'

/-- Python `\s` (ASCII): space, tab, newline, carriage return, vertical tab, form feed. -/
def isSpaceChar (c : Char) : Bool :=
  c = ' ' || c = '\t' || c = '\n' || c = '\r' || c = '\x0b' || c = '\x0c'

/-- The apostrophe character (written via its code point). -/
def apos : Char := Char.ofNat 39

/-- Punctuation class `[.,!?;:]` shared by the clean-up regexes. -/
def isPunct (c : Char) : Bool :=
  c = '.' || c = ',' || c = '!' || c = '?' || c = ';' || c = ':'

/-- Terminal-punctuation class `[.!?]` of the tidy collapse regex. -/
def isTermPunct (c : Char) : Bool := c = '.' || c = '!' || c = '?'

/-- Separator class `{:, ,, ;}` used by the smart-reduction rebuild loop. -/
def isSepStr (s : String) : Bool := s = ":" || s = "," || s = ";"

/-! ## Basic Python string operations on character lists -/

/-- Split off the longest leading run satisfying `p` (regex greedy `p*`). -/
def takeRun (p : Char → Bool) : List Char → List Char × List Char
  | [] => ([], [])
  | c :: cs =>
    if p c then
      let r := takeRun p cs
      (c :: r.1, r.2)
    else ([], c :: cs)

theorem takeRun_snd_length_le (p : Char → Bool) :
    ∀ l : List Char, (takeRun p l).2.length ≤ l.length := by
  intro l
  induction l with
  | nil => simp [takeRun]
  | cons c cs ih =>
    by_cases h : p c = true
    · simp only [takeRun, h, if_true]
      exact Nat.le_succ_of_le ih
    · simp only [takeRun, h]
      simp

theorem takeRun_append (p : Char → Bool) :
    ∀ l : List Char, (takeRun p l).1 ++ (takeRun p l).2 = l := by
  intro l
  induction l with
  | nil => simp [takeRun]
  | cons c cs ih =>
    by_cases h : p c = true
    · simp only [takeRun, h, if_true, List.cons_append, ih]
    · simp [takeRun, h]

/-- Python `str.lstrip()` over a character class. -/
def dropLeading (p : Char → Bool) (l : List Char) : List Char := l.dropWhile p

/-- Python `str.rstrip()` over a character class. -/
def dropTrailing (p : Char → Bool) (l : List Char) : List Char :=
  (l.reverse.dropWhile p).reverse

/-- Python `str.strip()` (over whitespace). -/
def pyStripChars (l : List Char) : List Char :=
  dropTrailing isSpaceChar (dropLeading isSpaceChar l)

def pyStrip (s : String) : String := ⟨pyStripChars s.data⟩

/-- Python `str.rstrip()` (over whitespace). -/
def pyRstrip (s : String) : String := ⟨dropTrailing isSpaceChar s.data⟩

/-- Python `str.lower()` (ASCII). -/
def pyLower (s : String) : String := ⟨s.data.map Char.toLower⟩

/-- Case-insensitive literal match at the head of `l` against `pat`
(Python `re.match` of a literal with `re.I`, or `str.startswith` after `lower()`). -/
def ciHeadMatch : List Char → List Char → Bool
  | [], _ => true
  | _ :: _, [] => false
  | p :: ps, c :: cs => (Char.toLower c = Char.toLower p) && ciHeadMatch ps cs

/-- Case-sensitive literal match at the head of `l`. -/
def headMatch : List Char → List Char → Bool
  | [], _ => true
  | _ :: _, [] => false
  | p :: ps, c :: cs => (c = p) && headMatch ps cs

/-- Whether `pat` occurs somewhere in `l` (substring occurrence). -/
def occursIn (pat : List Char) : List Char → Bool
  | [] => headMatch pat []
  | c :: cs => headMatch pat (c :: cs) || occursIn pat cs

/-- Case-sensitive `str.endswith`. -/
def endsWithLit (suf : String) (w : String) : Bool :=
  headMatch suf.data.reverse w.data.reverse

/-- Python `str.isupper()` (ASCII): at least one cased character and no
lowercase cased character. -/
def pyIsUpperStr (w : String) : Bool :=
  w.data.any (·.isAlpha) && w.data.all (fun c => !c.isAlpha || c.isUpper)

/-! ## Tokenization (`core/smart_reduction.py`) -/

/-- `_split_into_words` (lines 17-39) on a character list:
`re.findall(r"(\w+'\w+|\w+|[^\w\s]|\s+)", text)`, each token then classified
by `re.match(r"\w+('\w+)?", token)` — equivalently, by whether its first
character is a word character. The greedy left-to-right alternation yields:
a maximal word run, fused with an immediately following apostrophe + word
run into a single contraction token; otherwise a single non-word non-space
character; otherwise a maximal whitespace run. -/
def tokenizeGo : ℕ → List Char → List (String × Bool)
  | _, [] => []
  | 0, _ => []
  | fuel + 1, c :: cs =>
    if isWordChar c then
      let r1 := takeRun isWordChar cs
      match r1.2 with
      | a :: d :: rest2 =>
        if a = apos && isWordChar d then
          let r2 := takeRun isWordChar rest2
          (⟨c :: r1.1 ++ a :: d :: r2.1⟩, true) :: tokenizeGo fuel r2.2
        else (⟨c :: r1.1⟩, true) :: tokenizeGo fuel r1.2
      | _ => (⟨c :: r1.1⟩, true) :: tokenizeGo fuel r1.2
    else if isSpaceChar c then
      let r := takeRun isSpaceChar cs
      (⟨c :: r.1⟩, false) :: tokenizeGo fuel r.2
    else ((String.singleton c), false) :: tokenizeGo fuel cs

/-- The tokenizer on a character list. Each step consumes at least one
character, so fuel equal to the length keeps the recursion structural
without changing the result. -/
def tokenizeChars (l : List Char) : List (String × Bool) := tokenizeGo l.length l

/-- `_split_into_words` on a `String`. -/
def _split_into_words (text : String) : List (String × Bool) :=
  tokenizeChars text.data

/-- The maximal `\w+` runs of a character list: the matches of
`re.findall(r'\b\w+\b', ·)` (with both boundaries, the matches are exactly
the maximal word-character runs). -/
def wordRunsGo : ℕ → List Char → List (List Char)
  | _, [] => []
  | 0, _ => []
  | fuel + 1, c :: cs =>
    if isWordChar c then
      let r := takeRun isWordChar cs
      (c :: r.1) :: wordRunsGo fuel r.2
    else wordRunsGo fuel cs

/-- The maximal word runs of a character list (fuel keeps the recursion
structural). -/
def wordRunsChars (l : List Char) : List (List Char) := wordRunsGo l.length l

/-- `re.findall(r'\b\w+\b', text.lower())` from `_get_word_importance_scores`
(line 81). -/
def wordsInText (text : String) : List String :=
  (wordRunsChars (text.data.map Char.toLower)).map (fun l => ⟨l⟩)

/-- The matches of `re.finditer(r'\b[A-Z][A-Za-z0-9]*\b', text)`, lowercased
(lines 107-108). With both `\b` boundaries required and `_` being a word
character excluded from `[A-Za-z0-9]`, the matches are exactly the maximal
word runs that begin with an uppercase letter and contain only
alphanumerics. -/
def capitalizedWords (text : String) : List String :=
  ((wordRunsChars text.data).filter
      (fun l => (l.headD ' ').isUpper && l.all (fun c => c.isAlphanum))).map
    (fun l => ⟨l.map Char.toLower⟩)

/-! ## Word sets of `core/smart_reduction.py` -/

/-- `_get_removable_words` (lines 42-56). -/
def removable_words : List String :=
  ["a", "an", "the", "very", "quite", "rather", "somewhat", "fairly",
   "on", "in", "at", "of", "it", "this", "that"]

/-- `IMPERATIVE_VERBS` (lines 139-142). -/
def imperative_verbs : List String :=
  ["explain", "summarize", "outline", "list", "compare", "draft", "provide",
   "classify", "rewrite", "convert", "design", "suggest", "analyze",
   "describe", "identify", "give", "produce"]

/-- `STRUCTURE_WORDS` (lines 144-146). -/
def structure_words : List String := ["cover", "include", "output", "format"]

/-- The question words of `_is_important_word` (line 162). -/
def question_words : List String :=
  ["what", "how", "why", "when", "where", "who", "which", "whose"]

/-- The string literal `"n't"` (built from the apostrophe code point). -/
def ntSuffix : String := ⟨['n', apos, 't']⟩

/-- The negations of `_is_important_word` (line 175). -/
def negations : List String :=
  ["not", "no", "never", "none", "neither", "nobody", "nothing", ntSuffix]

/-- The special characters `['_', '-', '@', '.', '/']` of line 192. -/
def specialChars : List Char := ['_', '-', '@', '.', '/']

/-- `re.match(r'^\d+$', ·)`: a nonempty all-digit string. -/
def isPureDigits (l : List Char) : Bool := !l.isEmpty && l.all (·.isDigit)

/-- `re.match(r'^\d+[a-z]+$', ·)`: one or more digits followed by one or
more lowercase letters. -/
def isDigitThenAlpha (l : List Char) : Bool :=
  let r := takeRun Char.isDigit l
  !r.1.isEmpty && !r.2.isEmpty && r.2.all (·.isLower)

/-- `_is_important_word` from `core/smart_reduction.py` (lines 148-195): the
hard-preserve predicate, `pos_in_sentence` being one of `"first"`, `"last"`,
`"middle"`. -/
def _is_important_word (word : String) (pos_in_sentence : String) : Bool :=
  if pyLower word ∈ question_words then true
  else if pos_in_sentence = "first" && pyLower word ∈ imperative_verbs then true
  else if pyLower word ∈ structure_words then true
  else if pyLower word ∈ negations || endsWithLit ntSuffix word then true
  else if isPureDigits word.data then true
  else if (word.data.headD ' ').isUpper && pos_in_sentence = "middle" then true
  else if 2 ≤ word.length && pyIsUpperStr word then true
  else if specialChars.any (fun c => word.data.contains c) then true
  else false

/-! ## Importance scores (`_get_word_importance_scores`, lines 67-136)

The Python dict is embedded as a partial map `String → Option ℕ`, the score
unit being one hundredth (every score constant of the source — 0.7, 0.2,
1.0, 0.95, 0.9, 0.85 and the 0.5 lookup default — is an exact multiple of
0.01, and the only operations ever applied to scores are `max` and order
comparisons, which the scaling preserves). Each override block of the source
becomes one `apply…` stage below, applied in source order. Set/dict
iteration order is immaterial for the blocks embedded as folds: distinct
keys are updated independently, and repeated updates of one key assign the
same value. -/

/-- `word_scores[k] = v`. -/
def scoreUpdate (m : String → Option ℕ) (k : String) (v : ℕ) : String → Option ℕ :=
  fun w => if w = k then some v else m w

/-- The `0.7` baseline over `set(words_in_text)` (lines 84-86). -/
def baselineScores (ws : List String) : String → Option ℕ :=
  fun w => if w ∈ ws then some 70 else none

/-- The removable-word override (lines 88-92): `0.2` for present removable
words. -/
def applyRemovable (m : String → Option ℕ) : String → Option ℕ :=
  removable_words.foldl
    (fun m word => if (m word).isSome then scoreUpdate m word 20 else m) m

/-- The leading-imperative override (lines 96-99): first word of the text
scores `1.0` when it is an imperative verb. -/
def applyImperative (ws : List String) (m : String → Option ℕ) : String → Option ℕ :=
  match ws with
  | [] => m
  | w0 :: _ => if w0 ∈ imperative_verbs then scoreUpdate m w0 100 else m

/-- The structural-keyword override (lines 101-104): `0.95` for present
structure words. -/
def applyStructure (m : String → Option ℕ) : String → Option ℕ :=
  structure_words.foldl
    (fun m word => if (m word).isSome then scoreUpdate m word 95 else m) m

/-- The capitalized-word override (lines 106-110): each lowercased
`\b[A-Z][A-Za-z0-9]*\b` match present in the map is assigned `0.9`
(a direct assignment, not a `max`). -/
def applyCapitalized (caps : List String) (m : String → Option ℕ) : String → Option ℕ :=
  caps.foldl
    (fun m word => if (m word).isSome then scoreUpdate m word 90 else m) m

/-- The numbers-and-dates override (lines 112-115): `0.95` for pure digits or
digit-then-letters words. -/
def applyNumbers (ws : List String) (m : String → Option ℕ) : String → Option ℕ :=
  ws.foldl
    (fun m word =>
      if isPureDigits word.data || isDigitThenAlpha word.data then
        scoreUpdate m word 95
      else m) m

/-- The technical suffixes of line 120. -/
def technicalSuffixes : List String :=
  ["tion", "ment", "ness", "ity", "ance", "ence", "ization"]

/-- The technical-suffix override (lines 117-121):
`max(word_scores.get(word, 0), 0.85)`. -/
def applySuffix (ws : List String) (m : String → Option ℕ) : String → Option ℕ :=
  ws.foldl
    (fun m word =>
      if technicalSuffixes.any (fun suf => endsWithLit suf word) then
        scoreUpdate m word (max ((m word).getD 0) 85)
      else m) m

/-- The first-six-words override (lines 123-126):
`max(word_scores.get(word, 0), 0.85)` unless removable. -/
def applyLeadingWords (ws : List String) (m : String → Option ℕ) : String → Option ℕ :=
  (ws.take 6).foldl
    (fun m word =>
      if word ∉ removable_words then
        scoreUpdate m word (max ((m word).getD 0) 85)
      else m) m

/-- Deduplication keeping first occurrences (the key order of a Python dict
built by incrementing counters). -/
def firstDedupGo : ℕ → List String → List String
  | _, [] => []
  | 0, _ => []
  | fuel + 1, x :: xs => x :: firstDedupGo fuel (xs.filter (· ≠ x))

/-- Deduplication keeping first occurrences (fuel keeps the recursion
structural; filtering never lengthens the list). -/
def firstDedup (l : List String) : List String := firstDedupGo l.length l

/-- The repeated-words override (lines 128-134):
`max(word_scores.get(word, 0), 0.9)` for words occurring twice or more,
unless removable. -/
def applyFrequent (ws : List String) (m : String → Option ℕ) : String → Option ℕ :=
  (firstDedup ws).foldl
    (fun m word =>
      if 2 ≤ ws.count word ∧ word ∉ removable_words then
        scoreUpdate m word (max ((m word).getD 0) 90)
      else m) m

/-- `_get_word_importance_scores` (lines 67-136): the full override pipeline
in source order. -/
def _get_word_importance_scores (text : String) : String → Option ℕ :=
  let ws := wordsInText text
  applyFrequent ws
    (applyLeadingWords ws
      (applySuffix ws
        (applyNumbers ws
          (applyCapitalized (capitalizedWords text)
            (applyStructure
              (applyImperative ws
                (applyRemovable (baselineScores ws))))))))

/-! ## Regex clean-up passes

Each of the `re.sub` clean-up calls of the sources is embedded as a
left-to-right scanner with the exact semantics of the (simple) pattern it
applies: non-overlapping matches found left to right, scanning resuming
after each match. -/

/-- `re.sub(r'\s+', ' ', s)`: each whitespace run becomes one space. -/
def collapseWsGo : ℕ → List Char → List Char
  | _, [] => []
  | 0, l => l
  | fuel + 1, c :: cs =>
    if isSpaceChar c then ' ' :: collapseWsGo fuel (takeRun isSpaceChar cs).2
    else c :: collapseWsGo fuel cs

/-- `re.sub(r'\s+', ' ', s)` (fuel keeps the recursion structural). -/
def collapseWs (l : List Char) : List Char := collapseWsGo l.length l

/-- `re.sub(r'\s+([.,!?;:])', r'\1', s)`: drop whitespace runs directly
before a punctuation character (a run not followed by punctuation cannot
start a match at any of its positions, so it is copied whole). -/
def rmSpaceBeforePunctGo : ℕ → List Char → List Char
  | _, [] => []
  | 0, l => l
  | fuel + 1, c :: cs =>
    if isSpaceChar c then
      let r := takeRun isSpaceChar cs
      match r.2 with
      | p :: rest =>
        if isPunct p then p :: rmSpaceBeforePunctGo fuel rest
        else c :: r.1 ++ p :: rmSpaceBeforePunctGo fuel rest
      | [] => c :: r.1
    else c :: rmSpaceBeforePunctGo fuel cs

/-- `re.sub(r'\s+([.,!?;:])', r'\1', s)` (fuel keeps the recursion
structural). -/
def rmSpaceBeforePunct (l : List Char) : List Char :=
  rmSpaceBeforePunctGo l.length l

/-- `re.sub(r'([.,!?;:])\s*([.,!?;:])', r'\1', s)`: a punctuation character,
optional whitespace and a second punctuation character collapse to the
first; with `\s*` greedy, the match exists iff the first non-space character
after the punctuation is punctuation, and scanning resumes after it. -/
def collapseDupPunctGo : ℕ → List Char → List Char
  | _, [] => []
  | 0, l => l
  | fuel + 1, c :: cs =>
    if isPunct c then
      match (takeRun isSpaceChar cs).2 with
      | q :: rest =>
        if isPunct q then c :: collapseDupPunctGo fuel rest
        else c :: collapseDupPunctGo fuel cs
      | [] => c :: collapseDupPunctGo fuel cs
    else c :: collapseDupPunctGo fuel cs

/-- `re.sub(r'([.,!?;:])\s*([.,!?;:])', r'\1', s)` (fuel keeps the recursion
structural). -/
def collapseDupPunct (l : List Char) : List Char := collapseDupPunctGo l.length l

/-- `re.sub(r'([.,!?;:])([a-zA-Z])', r'\1 \2', s)` (smart reduction, line
322): insert a space between punctuation and a letter; scanning resumes
after the letter. -/
def addSpaceAfterPunct : List Char → List Char
  | [] => []
  | [c] => [c]
  | c :: d :: rest =>
    if isPunct c then
      if d.isAlpha then c :: ' ' :: d :: addSpaceAfterPunct rest
      else c :: addSpaceAfterPunct (d :: rest)
    else c :: addSpaceAfterPunct (d :: rest)

/-- `re.sub(r"([\.,!?:;])([^\s\.,!?:;])", r"\1 \2", s)` (tidy, line 39):
insert a space between punctuation and any non-space non-punctuation
character; scanning resumes after that character. -/
def tidyAddSpaceAfterPunct : List Char → List Char
  | [] => []
  | [c] => [c]
  | c :: d :: rest =>
    if isPunct c then
      if !isSpaceChar d && !isPunct d then
        c :: ' ' :: d :: tidyAddSpaceAfterPunct rest
      else c :: tidyAddSpaceAfterPunct (d :: rest)
    else c :: tidyAddSpaceAfterPunct (d :: rest)

/-- `re.sub(r"[\.!?]{2,}", lambda m: m.group(0)[0], s)` (tidy, line 36):
a maximal run of two or more terminal-punctuation characters collapses to
its first character. -/
def collapseTermRunsGo : ℕ → List Char → List Char
  | _, [] => []
  | 0, l => l
  | fuel + 1, c :: cs =>
    if isTermPunct c then
      let r := takeRun isTermPunct cs
      if r.1.isEmpty then c :: collapseTermRunsGo fuel cs
      else c :: collapseTermRunsGo fuel r.2
    else c :: collapseTermRunsGo fuel cs

/-- `re.sub(r"[\.!?]{2,}", lambda m: m.group(0)[0], s)` (fuel keeps the
recursion structural). -/
def collapseTermRuns (l : List Char) : List Char := collapseTermRunsGo l.length l

/-- `re.sub(r"^<phrase>", "", s, flags=re.I)` for a literal phrase: one
anchored case-insensitive removal. -/
def stripCiLead (pat : String) (l : List Char) : List Char :=
  if ciHeadMatch pat.data l then l.drop pat.data.length else l

/-- `if s and s[0].islower(): s = s[0].upper() + s[1:]` (tidy, lines 50-51). -/
def capitalizeIfLower : List Char → List Char
  | [] => []
  | c :: cs => if c.isLower then c.toUpper :: cs else c :: cs

/-- `result = result[0].upper() + result[1:]` (smart reduction, line 333). -/
def capitalizeFirst : List Char → List Char
  | [] => []
  | c :: cs => c.toUpper :: cs

/-- The recognized main-content openers of the orphan-strip regex (line 326). -/
def mainContentOpeners : List String :=
  ["One", "The", "That", "Different", "Sources", "I"]

/-- One repetition of `(?:\w+\'?\w*\s+)`: a nonempty word run, optionally an
apostrophe and a further word run, then nonempty whitespace. Returns the
suffix after the repetition, or `none`. (The repetition is deterministic:
the runs are maximal, and if the optional apostrophe branch fails to find
trailing whitespace, dropping the apostrophe cannot succeed either, since
the character after the first run is the apostrophe itself.) -/
def orphanRep (l : List Char) : Option (List Char) :=
  let r1 := takeRun isWordChar l
  if r1.1.isEmpty then none
  else
    let afterWord :=
      match r1.2 with
      | a :: rest2 => if a = apos then (takeRun isWordChar rest2).2 else r1.2
      | [] => r1.2
    let rs := takeRun isSpaceChar afterWord
    if rs.1.isEmpty then none else some rs.2

/-- The suffixes remaining after 1, 2, … successive repetitions (at most the
fuel many). -/
def orphanRemainders : ℕ → List Char → List (List Char)
  | 0, _ => []
  | n + 1, l =>
    match orphanRep l with
    | none => []
    | some rest => rest :: orphanRemainders n rest

/-- `re.sub(r'^(?:\w+\'?\w*\s+){1,6}(One|The|That|Different|Sources|I)',
r'\1', result)` (line 326): with the greedy counted repetition, the longest
repetition count (at most 6) whose suffix starts with an opener wins; the
matched span is replaced by the group's own characters, i.e. the leading
repetitions are dropped. Anchored at `^`, so at most one substitution. -/
def stripLeadingOrphans (l : List Char) : List Char :=
  match (orphanRemainders 6 l).reverse.find?
      (fun rest => mainContentOpeners.any (fun o => headMatch o.data rest)) with
  | some rest => rest
  | none => l

/-- `re.sub(r'\b(Cover)\s+(?=[A-Za-z0-9])', r'\1: ', result)` (line 329):
at a word boundary, `Cover` followed by whitespace and (lookahead) an
alphanumeric becomes `Cover: `; the Boolean argument tracks whether the
previous character is a word character. -/
def coverFixGo : ℕ → Bool → List Char → List Char
  | _, _, [] => []
  | 0, _, l => l
  | fuel + 1, prevWord, c :: cs =>
    if !prevWord && headMatch "Cover".data (c :: cs) then
      let rest := (c :: cs).drop 5
      let rs := takeRun isSpaceChar rest
      if !rs.1.isEmpty && (match rs.2 with | d :: _ => d.isAlphanum | [] => false) then
        'C' :: 'o' :: 'v' :: 'e' :: 'r' :: ':' :: ' ' :: coverFixGo fuel false rs.2
      else c :: coverFixGo fuel (isWordChar c) cs
    else c :: coverFixGo fuel (isWordChar c) cs

/-- The Cover-colon substitution (fuel keeps the recursion structural). -/
def coverFix (prevWord : Bool) (l : List Char) : List Char :=
  coverFixGo l.length prevWord l

/-! ## Filler Remover (`core/rule_based.py`)

`optimize_rule_based` is embedded at the empty filler configuration
(`patterns=[]`, `words=[]`): the configured patterns are free-form regexes
read from an external configuration resource outside the repository, so the
pattern-substitution loop (lines 28-32), a no-op for the empty
configuration, is not modelled for arbitrary patterns. -/

/-- The leading politeness phrases of
`re.sub(r'^(can you|could you|would you|please|kindly)[:,\s]*', '', s,
flags=re.I)` (line 26), in alternation order. -/
def preamblePhrases : List String :=
  ["can you", "could you", "would you", "please", "kindly"]

/-- One anchored removal of a politeness phrase and the following run of
colons, commas and whitespace. -/
def stripPreamble (l : List Char) : List Char :=
  match preamblePhrases.find? (fun p => ciHeadMatch p.data l) with
  | some p => (takeRun (fun c => c = ':' || c = ',' || isSpaceChar c) (l.drop p.data.length)).2
  | none => l

/-- The strip set of `s.strip(' \n\t\r"')` (line 36). -/
def ruleStripSet (c : Char) : Bool :=
  c = ' ' || c = '\n' || c = '\t' || c = '\r' || c = '"'

/-- `optimize_rule_based` from `core/rule_based.py` (lines 15-37), at the
empty filler configuration. -/
def optimize_rule_based (text : String) : String :=
  if text = "" then text
  else
    let s := pyStripChars text.data
    let s := stripPreamble s
    let s := collapseWs s
    let s := rmSpaceBeforePunct s
    ⟨dropTrailing ruleStripSet (dropLeading ruleStripSet s)⟩

/-! ## Normalizer (`tidy_text`, `prompt_compressor/main.py` lines 32-54) -/

/-- The leading auxiliary phrases stripped by tidy (lines 42-47), in source
order. -/
def auxPhrases : List String :=
  ["you could ", "you would ", "you can ", "you should ", "I need to ",
   "I want to "]

/-- `tidy_text` from `prompt_compressor/main.py` (lines 32-54). -/
def tidy_text (s : String) : String :=
  if s = "" then s
  else
    let l := pyStripChars s.data
    let l := collapseTermRuns l
    let l := dropLeading (fun c => !isWordChar c) l
    let l := rmSpaceBeforePunct l
    let l := tidyAddSpaceAfterPunct l
    let l := auxPhrases.foldl (fun l p => stripCiLead p l) l
    let l := capitalizeIfLower l
    ⟨dropTrailing isSpaceChar l⟩

/-! ## Smart Reducer (`optimize_smart_reduction`, lines 198-335)

Embedded at the default `target_reduction=0.20`; the
`preserve_question_structure` flag is an explicit parameter (default
`True`). The scaled float comparisons of the source (`len(tokens) * 0.1`,
`len(tokens) * 0.9`, `int(total_words * target_reduction)` for targets
0.18/0.20/0.15) are embedded as exact rational arithmetic: at every such
comparison the double rounding error is far below the distance to the
nearest integer, so the float and rational computations agree. Lines
281-284 of the source compute `word_char_pos` and then `pass`, with no
effect; they are not modelled. -/

/-- The tokens of the text (line 247). -/
def smartTokens (text : String) : List (String × Bool) := _split_into_words text

/-- `word_tokens` (line 248): the indexed word tokens. -/
def smartWordTokens (text : String) : List (ℕ × String) :=
  ((smartTokens text).enum.filter (fun p => p.2.2)).map (fun p => (p.1, p.2.1))

/-- `len(text.split())` (line 231): the number of maximal non-whitespace
chunks. -/
def countChunksGo : ℕ → List Char → ℕ
  | _, [] => 0
  | 0, _ => 0
  | fuel + 1, c :: cs =>
    if isSpaceChar c then countChunksGo fuel cs
    else 1 + countChunksGo fuel (takeRun (fun d => !isSpaceChar d) cs).2

/-- `len(text.split())` (fuel keeps the recursion structural). -/
def countChunks (l : List Char) : ℕ := countChunksGo l.length l

/-- The adaptive target reduction (lines 230-236), starting from the default
`0.20`, as an exact fraction (numerator over 100): `0.18`, `0.20`, `0.15`.
At every `int(total_words * target_reduction)` the code takes, the double
rounding error is far smaller than the distance of the exact product to the
nearest integer below or above, so the float computation agrees with the
exact one. -/
def smartTargetReduction (text : String) : ℕ :=
  let wc := countChunks text.data
  if 150 < wc then 18
  else if 80 < wc then 20
  else if wc < 30 then 15
  else 20

/-- The question starters of line 240 (note: no `whose` here, unlike
`_is_important_word`). -/
def questionStarters : List String :=
  ["what", "how", "why", "when", "where", "who", "which"]

/-- `is_question` (lines 239-241). -/
def smartIsQuestion (text : String) : Bool :=
  endsWithLit "?" (pyStrip text) ||
    questionStarters.any (fun q => headMatch q.data (pyLower text).data)

/-- `target_remove_count = int(total_words * target_reduction)` (line 258):
the floor of the exact product, i.e. natural division by 100. -/
def smartRemoveCount (text : String) : ℕ :=
  (smartWordTokens text).length * smartTargetReduction text / 100

/-- `'first' | 'last' | 'middle'` from the token position (lines 267-273). -/
def posTag (tokensLen i : ℕ) : String :=
  if 10 * i < tokensLen then "first"
  else if 9 * tokensLen < 10 * i then "last"
  else "middle"

/-- The state built by the scoring loop (lines 253-293): `words_to_keep` and
`word_importance`. -/
structure SelState where
  keep : List ℕ
  imp : List (ℕ × String × ℕ)

/-- One iteration of the scoring loop (lines 264-293): a hard-preserved word
joins `words_to_keep`; the last word of a question joins it too (when
`preserve_question_structure` is set); otherwise the word is scored
(`word_scores.get(word.lower(), 0.5)`) and queued in `word_importance`. -/
def selStep (tokensLen lastIdx : ℕ) (isQ preserveQ : Bool)
    (scores : String → Option ℕ) (st : SelState) (p : ℕ × String) : SelState :=
  let pos := posTag tokensLen p.1
  if _is_important_word p.2 pos then { st with keep := st.keep ++ [p.1] }
  else if isQ && preserveQ && p.1 = lastIdx then
    { st with keep := st.keep ++ [p.1] }
  else
    { st with imp := st.imp ++ [(p.1, p.2, (scores (pyLower p.2)).getD 50)] }

/-- The scoring loop over `word_tokens` (lines 264-293). -/
def smartSelect (text : String) (preserveQ : Bool) : SelState :=
  let tokens := smartTokens text
  let wordToks := smartWordTokens text
  let scores := _get_word_importance_scores text
  let isQ := smartIsQuestion text
  let lastIdx := ((wordToks.getLast?).map Prod.fst).getD 0
  wordToks.foldl (selStep tokens.length lastIdx isQ preserveQ scores) ⟨[], []⟩

/-- The ascending-by-score comparison of `word_importance.sort(key=lambda x:
x[2])` (line 296); insertion sort with this relation is stable, matching
Python's stable sort. -/
def scoreLE (a b : ℕ × String × ℕ) : Prop := a.2.2 ≤ b.2.2

instance : DecidableRel scoreLE :=
  fun a b => inferInstanceAs (Decidable (a.2.2 ≤ b.2.2))

/-- `words_to_remove` (lines 298-302): indices of the lowest-scoring words up
to the target count, skipping kept ones. -/
def smartWordsToRemove (text : String) (preserveQ : Bool) : List ℕ :=
  let st := smartSelect text preserveQ
  let sorted := st.imp.insertionSort scoreLE
  (sorted.take (smartRemoveCount text)).foldl
    (fun rm t => if t.1 ∈ st.keep then rm else rm ++ [t.1]) []

/-- One step of the rebuild loop (lines 305-313): a word token is kept unless
marked for removal; a separator (`:`/`,`/`;`) is kept only when something was
kept before and the most recent kept token is not itself a separator; every
other non-word token is dropped. -/
def rebuildStep (rm : List ℕ) (acc : List String) (p : ℕ × (String × Bool)) :
    List String :=
  if p.2.2 then (if p.1 ∈ rm then acc else acc ++ [p.2.1])
  else if isSepStr p.2.1 then
    match acc.getLast? with
    | none => acc
    | some last => if isSepStr last then acc else acc ++ [p.2.1]
  else acc

/-- The rebuild loop (lines 305-313). -/
def rebuildTokens (tokens : List (String × Bool)) (rm : List ℕ) : List String :=
  tokens.enum.foldl (rebuildStep rm) []

/-- `kept_tokens` as computed for `text` (lines 305-313). -/
def smartKeptTokens (text : String) (preserveQ : Bool) : List String :=
  rebuildTokens (smartTokens text) (smartWordsToRemove text preserveQ)

/-- Whether a token string is a word token: its first character is a word
character (the tokenizer's classification `re.match(r"\w+('\w+)?", token)`). -/
def isWordStr (s : String) : Bool :=
  match s.data with
  | c :: _ => isWordChar c
  | [] => false

/-- The hard-preserve condition exactly as the specification's hard-preserve
property lists it: a question word, a negation (negation set or ending
`n't`), a pure-digit token, an all-caps token of length at least two, or a
token containing one of `_ - @ . /`. -/
def claimHardPreserved (w : String) : Bool :=
  decide (pyLower w ∈ question_words) ||
  decide (pyLower w ∈ negations) || endsWithLit ntSuffix w ||
  isPureDigits w.data ||
  (decide (2 ≤ w.length) && pyIsUpperStr w) ||
  specialChars.any (fun c => w.data.contains c)

/-- The tokens the rebuild loop appends after a state whose most recent kept
token is `last` (`none` when nothing is kept yet): the loop's decisions
depend on the accumulated list only through its last element, so the fold
from any accumulator is the accumulator followed by this suffix. -/
def rebuildSuffix (rm : List ℕ) : Option String → List (ℕ × (String × Bool)) → List String
  | _, [] => []
  | last, p :: l =>
    if p.2.2 then
      if p.1 ∈ rm then rebuildSuffix rm last l
      else p.2.1 :: rebuildSuffix rm (some p.2.1) l
    else if isSepStr p.2.1 then
      match last with
      | none => rebuildSuffix rm last l
      | some t =>
        if isSepStr t then rebuildSuffix rm last l
        else p.2.1 :: rebuildSuffix rm (some p.2.1) l
    else rebuildSuffix rm last l

/-- `optimize_smart_reduction` from `core/smart_reduction.py` (lines
198-335). -/
def optimize_smart_reduction (text : String) (preserve_question_structure : Bool) :
    String :=
  if text = "" || pyStrip text = "" then text
  else if smartWordTokens text = [] then text
  else
    let result := String.intercalate " " (smartKeptTokens text preserve_question_structure)
    let l := collapseWs result.data
    let l := rmSpaceBeforePunct l
    let l := collapseDupPunct l
    let l := addSpaceAfterPunct l
    let l := stripLeadingOrphans l
    let l := coverFix false l
    let l := capitalizeFirst l
    ⟨pyStripChars l⟩

/-! ## Extractive Selector (`core/extractive.py`)

The sentence-transformers encoder is an external collaborator. It is
abstracted as a structure bundling the composite
`util.cos_sim(model.encode(sentences), model.encode([text])).squeeze(-1).tolist()`
call (lines 59-61): a similarity score for each sentence against the full
text, one score per sentence (the encoder returns one embedding per input
string). The `try: from sentence_transformers import util` fallback is
folded into the availability of the handle. -/

structure Encoder where
  sentSims : List String → String → List ℚ
  length_sentSims : ∀ ss t, (sentSims ss t).length = ss.length

/-- The splitting scan of `re.split(r'(?<=[.!?])\s+', ·)`: cut at every
whitespace run whose preceding character is terminal punctuation (the
reversed accumulator holds the current part, its head being the previously
read character, i.e. the lookbehind). -/
def sentenceSplitGo : ℕ → List Char → List Char → List (List Char)
  | _, cur, [] => [cur.reverse]
  | 0, cur, l => [cur.reverse ++ l]
  | fuel + 1, cur, c :: cs =>
    if isSpaceChar c && (match cur with | p :: _ => isTermPunct p | [] => false) then
      cur.reverse :: sentenceSplitGo fuel [] (takeRun isSpaceChar cs).2
    else sentenceSplitGo fuel (c :: cur) cs

/-- The splitting scan (fuel keeps the recursion structural). -/
def sentenceSplitScan (cur : List Char) (l : List Char) : List (List Char) :=
  sentenceSplitGo l.length cur l

/-- Python `str.splitlines()` (ASCII line terminators). -/
def splitlinesScan (cur : List Char) : List Char → List (List Char)
  | [] => if cur.isEmpty then [] else [cur.reverse]
  | '\r' :: '\n' :: rest => cur.reverse :: splitlinesScan [] rest
  | c :: cs =>
    if c = '\r' || c = '\n' || c = '\x0b' || c = '\x0c' then
      cur.reverse :: splitlinesScan [] cs
    else splitlinesScan (c :: cur) cs

/-- `_split_sentences` from `core/extractive.py` (lines 28-36): split the
stripped text after terminal punctuation; if that yields a single part, fall
back to the (non-blank) lines of the original text; strip the parts and drop
empties. (The inner `line.split('\n')` of the fallback is a no-op on lines.) -/
def _split_sentences (text : String) : List String :=
  if text = "" then []
  else
    let parts := sentenceSplitScan [] (pyStripChars text.data)
    let parts :=
      if parts.length = 1 then
        (splitlinesScan [] text.data).filter (fun p => !(pyStripChars p).isEmpty)
      else parts
    (parts.map (fun p => (⟨pyStripChars p⟩ : String))).filter (fun p => p ≠ "")

/-- `sims[i]` for the ranking key (line 62). -/
def simGet (sims : List ℚ) (i : ℕ) : ℚ := sims.getD i 0

/-- The comparison underlying
`sorted(range(len(sims)), key=lambda i: sims[i], reverse=True)` (line 62):
stable descending order by similarity; insertion sort with this relation is
stable with earlier indices first among ties, as Python's sort is. -/
def rankGE (sims : List ℚ) (i j : ℕ) : Prop := simGet sims j ≤ simGet sims i

instance : (sims : List ℚ) → DecidableRel (rankGE sims) :=
  fun _ _ _ => inferInstanceAs (Decidable (_ ≤ _))

/-- `optimize_extractive` from `core/extractive.py` (lines 39-65), the model
resolution (parameter or cached handle, lines 43-48) abstracted into the
`model` argument. -/
def optimize_extractive (model : Option Encoder) (text : String)
    (max_sentences : ℕ) : String :=
  if text = "" then text
  else
    match model with
    | none => text
    | some enc =>
      let sentences := _split_sentences text
      if sentences = [] then text
      else if sentences.length = 1 then sentences.headD ""
      else
        let sims := enc.sentSims sentences text
        let ranked := List.insertionSort (rankGE sims) (List.range sims.length)
        let selected := List.insertionSort (· ≤ ·) (ranked.take max_sentences)
        String.intercalate " " (selected.map (fun i => sentences.getD i ""))

/-! ## The cached model handle (`get_model`, `core/extractive.py` lines 6-24)

`_CACHED_MODEL` is process-wide state; one call of `get_model` is a state
transition on the cache. `loadAttempt` is the outcome the
`SentenceTransformer('all-MiniLM-L6-v2')` construction would have on this
call (`some m` success, `none` raised), consulted only when the call
actually attempts initialization. -/

structure GetModelResult (M : Type) where
  result : Option M
  cache : Option M
  attempted : Bool

/-- One call of `get_model`: on an empty cache the construction is attempted
(success fills the cache and is returned; failure returns `None` leaving the
cache empty); a filled cache is returned without any attempt. -/
def get_model {M : Type} (loadAttempt : Option M) (cache : Option M) :
    GetModelResult M :=
  match cache with
  | none =>
    match loadAttempt with
    | some m => ⟨some m, some m, true⟩
    | none => ⟨none, none, true⟩
  | some m => ⟨some m, some m, false⟩

/-! ## The pipeline driver (`run`, `prompt_compressor/main.py` lines 12-117)

Embedded at the empty filler configuration (empty `patterns`, `words` and
`aggressive` lists — the configuration resource lives outside the
repository), with the tiktoken tokenizer as an abstract
`tc : String → ℕ` (spec interface: `count(text) -> integer ≥ 0`) and the
encoder handle as a parameter. The psutil/energy/CO2 accounting and the
printing have no influence on the computed texts and are not modelled. The
early return on an empty stripped prompt appears in the theorems as the
hypothesis `pyStrip prompt ≠ ""`. -/

/-- The connector class `[,;:\-]` of the generic trailing-clause strip
(line 92). -/
def connectorChars : List Char := [',', ';', ':', '-']

/-- The conjunction/relative alternatives of line 92. -/
def conjunctionWords : List String :=
  ["and", "for", "that", "which", "please", "include"]

/-- A case-insensitive occurrence of `w` at the head of `l` followed by a
`\b` boundary. -/
def ciWordBoundaryAt (w : String) (l : List Char) : Bool :=
  ciHeadMatch w.data l &&
    (match l.drop w.data.length with | [] => true | d :: _ => !isWordChar d)

/-- `re.sub(r"[,;:\-]\s*(and|for|that|which|please|include)\b.*$", '',
cleaned, flags=re.I)` (line 92): delete from the first connector that is
followed (after optional whitespace) by one of the conjunction words at a
word boundary, to the end. (The `.*$` tail reaches the end of the string:
the cleaned text this is applied to contains no newline, all whitespace
having been collapsed to single spaces by `optimize_rule_based`.) -/
def genericStripScan : List Char → List Char
  | [] => []
  | c :: cs =>
    if c ∈ connectorChars then
      if conjunctionWords.any (fun w => ciWordBoundaryAt w (takeRun isSpaceChar cs).2) then
        []
      else c :: genericStripScan cs
    else c :: genericStripScan cs

/-- The texts and reported saving computed by one `run`. -/
structure RunResult where
  original : String
  cleaned : String
  extracted : String
  compressed : String
  tokensSaved : ℤ

/-- `run` from `prompt_compressor/main.py` (lines 12-117), at the empty
filler configuration: rule-based cleaning plus tidy (lines 30-56),
extractive selection plus tidy (lines 58-62), the aggressive fallback under
its stall guard (lines 64-96; with no configured aggressive patterns, only
the generic trailing-clause strip), and the reported
`tokens_saved = max(0, orig_tokens - compressed_tokens)` (line 117). -/
def runPipeline (tc : String → ℕ) (enc : Option Encoder) (prompt : String) :
    RunResult :=
  let original := pyStrip prompt
  let cleaned := tidy_text (optimize_rule_based original)
  let orig_tokens := tc original
  let num_sentences := if 60 ≤ orig_tokens then 2 else 1
  let extracted := tidy_text (optimize_extractive enc cleaned num_sentences)
  let cleaned_tokens := tc cleaned
  let extracted_tokens := tc extracted
  let compressed :=
    if cleaned_tokens ≤ extracted_tokens then
      let candidate := tidy_text ⟨genericStripScan cleaned.data⟩
      if tc candidate < extracted_tokens then candidate else extracted
    else extracted
  RunResult.mk original cleaned extracted compressed
    (max 0 ((tc original : ℤ) - (tc compressed : ℤ)))

/-! ## Validator (`core/validator.py`)

The sentence-transformers encoder is an external collaborator; it is
abstracted as an optional similarity oracle `Option (String → String → ℚ)`:
`none` is the unavailable state of the cached model handle, and `some f`
stands for a loaded model together with `util.cos_sim` on its embeddings
(the `try/except` fallback that returns `1.0` on an encoder exception is
folded into the oracle being a total function). -/

/-- `calculate_semantic_similarity` from `core/validator.py` (lines 12-46):
returns `0.0` when either text is falsy (empty), `1.0` when the texts agree
after `strip().lower()`, and otherwise consults the encoder, assuming `1.0`
when the model is unavailable. -/
def calculate_semantic_similarity (model : Option (String → String → ℚ))
    (text1 text2 : String) : ℚ :=
  if text1 = "" || text2 = "" then 0
  else if pyLower (pyStrip text1) = pyLower (pyStrip text2) then 1
  else
    match model with
    | none => 1
    | some f => f text1 text2

/-- `validate_compression` from `core/validator.py` (lines 49-67). -/
def validate_compression (model : Option (String → String → ℚ))
    (original compressed : String) (min_similarity : ℚ) : Bool × ℚ :=
  let similarity := calculate_semantic_similarity model original compressed
  (decide (min_similarity ≤ similarity), similarity)

/-- C5: the identical-texts short-circuit fires for any nonempty `x`,
for every possible encoder state (so no encoder call is needed). -/
theorem validator_reflexive (model : Option (String → String → ℚ))
    (x : String) (hx : x ≠ "") :
    calculate_semantic_similarity model x x = 1 := by
  unfold calculate_semantic_similarity
  rw [if_neg, if_pos rfl]
  simp [hx]

theorem validator_reflexive_witness :
    "abc" ≠ "" ∧ calculate_semantic_similarity none "abc" "abc" = 1 :=
  ⟨by decide, validator_reflexive none "abc" (by decide)⟩

/-- C10: an empty argument forces similarity `0.0` — even when both texts are
empty (hence identical) — so an empty compressed text is reported invalid
under any positive threshold. -/
theorem validator_empty_compressed (model : Option (String → String → ℚ))
    (original : String) (thr : ℚ) (hthr : 0 < thr) :
    calculate_semantic_similarity model original "" = 0 ∧
      calculate_semantic_similarity model "" "" = 0 ∧
      (validate_compression model original "" thr).1 = false := by
  have h1 : calculate_semantic_similarity model original "" = 0 := by
    simp [calculate_semantic_similarity]
  refine ⟨h1, rfl, ?_⟩
  simp only [validate_compression, h1]
  simp [not_le.mpr hthr]

theorem validator_empty_compressed_witness :
    (0 : ℚ) < 3/4 ∧
      (calculate_semantic_similarity none "Explain climate change" "" = 0 ∧
        calculate_semantic_similarity none "" "" = 0 ∧
        (validate_compression none "Explain climate change" "" (3/4)).1 = false) :=
  ⟨by norm_num, validator_empty_compressed none "Explain climate change" (3/4) (by norm_num)⟩

/-! ## Lemmas about the rebuild loop -/

theorem getLast_append_singleton (acc : List String) (t : String) :
    (acc ++ [t]).getLast? = some t := by
  simp

theorem foldl_rebuildStep_eq_suffix (rm : List ℕ) :
    ∀ (l : List (ℕ × (String × Bool))) (acc : List String),
      l.foldl (rebuildStep rm) acc = acc ++ rebuildSuffix rm acc.getLast? l := by
  intro l
  induction l with
  | nil => intro acc; simp [rebuildSuffix]
  | cons p l ih =>
    intro acc
    rw [List.foldl_cons]
    by_cases hw : p.2.2 = true
    · by_cases hrm : p.1 ∈ rm
      · rw [show rebuildStep rm acc p = acc by simp [rebuildStep, hw, hrm]]
        rw [ih acc]
        simp [rebuildSuffix, hw, hrm]
      · rw [show rebuildStep rm acc p = acc ++ [p.2.1] by simp [rebuildStep, hw, hrm]]
        rw [ih (acc ++ [p.2.1]), getLast_append_singleton]
        simp [rebuildSuffix, hw, hrm]
    · by_cases hsep : isSepStr p.2.1 = true
      · cases hlast : acc.getLast? with
        | none =>
          rw [show rebuildStep rm acc p = acc by
            simp [rebuildStep, hw, hsep, hlast]]
          rw [ih acc, hlast]
          simp [rebuildSuffix, hw, hsep]
        | some t =>
          by_cases ht : isSepStr t = true
          · rw [show rebuildStep rm acc p = acc by
              simp [rebuildStep, hw, hsep, hlast, ht]]
            rw [ih acc, hlast]
            simp [rebuildSuffix, hw, hsep, ht]
          · rw [show rebuildStep rm acc p = acc ++ [p.2.1] by
              simp [rebuildStep, hw, hsep, hlast, ht]]
            rw [ih (acc ++ [p.2.1]), getLast_append_singleton]
            simp [rebuildSuffix, hw, hsep, ht]
      · rw [show rebuildStep rm acc p = acc by simp [rebuildStep, hw, hsep]]
        rw [ih acc]
        simp [rebuildSuffix, hw, hsep]

theorem rebuildTokens_eq_suffix (tokens : List (String × Bool)) (rm : List ℕ) :
    rebuildTokens tokens rm = rebuildSuffix rm none tokens.enum := by
  unfold rebuildTokens
  rw [foldl_rebuildStep_eq_suffix]
  rfl

theorem mem_rebuildSuffix_of_kept (rm : List ℕ) :
    ∀ (l : List (ℕ × (String × Bool))) (last : Option String) (i : ℕ) (w : String),
      (i, (w, true)) ∈ l → i ∉ rm → w ∈ rebuildSuffix rm last l := by
  intro l
  induction l with
  | nil => intro last i w h; simp at h
  | cons p l ih =>
    intro last i w hmem hrm
    rcases List.mem_cons.mp hmem with heq | htail
    · subst heq
      simp [rebuildSuffix, hrm]
    · unfold rebuildSuffix
      by_cases hw : p.2.2 = true
      · simp only [hw, if_true]
        by_cases hrm2 : p.1 ∈ rm
        · rw [if_pos hrm2]; exact ih _ i w htail hrm
        · rw [if_neg hrm2]; exact List.mem_cons_of_mem _ (ih _ i w htail hrm)
      · simp only [hw]
        simp only [if_false, Bool.false_eq_true]
        by_cases hsep : isSepStr p.2.1 = true
        · rw [if_pos hsep]
          cases last with
          | none => exact ih _ i w htail hrm
          | some t =>
            by_cases ht : isSepStr t = true
            · simp only [ht, if_true]; exact ih _ i w htail hrm
            · simp only [ht]
              simp only [if_false, Bool.false_eq_true]
              exact List.mem_cons_of_mem _ (ih _ i w htail hrm)
        · rw [if_neg hsep]
          exact ih _ i w htail hrm

/-! ## Lemmas about the scoring loop and the word-token list -/

theorem mem_smartWordTokens_iff (text : String) (i : ℕ) (w : String) :
    (i, w) ∈ smartWordTokens text ↔ (smartTokens text).get? i = some (w, true) := by
  unfold smartWordTokens
  constructor
  · intro h
    obtain ⟨p, hp, hpe⟩ := List.mem_map.mp h
    obtain ⟨hpmem, hpw⟩ := List.mem_filter.mp hp
    obtain ⟨a, b, c⟩ := p
    simp only at hpw
    obtain ⟨h1, h2⟩ := Prod.mk.injEq .. ▸ (by exact hpe : (a, b) = (i, w))
    have hc : c = true := by simpa using hpw
    have hget : (smartTokens text).get? a = some (b, c) :=
      List.mem_enum_iff_get?.mp hpmem
    rw [h1, h2, hc] at hget
    exact hget
  · intro h
    refine List.mem_map.mpr ⟨(i, (w, true)), ?_, rfl⟩
    exact List.mem_filter.mpr ⟨List.mem_enum_iff_get?.mpr h, by simp⟩

theorem smartWordTokens_functional (text : String) {i : ℕ} {w w' : String}
    (h : (i, w) ∈ smartWordTokens text) (h' : (i, w') ∈ smartWordTokens text) :
    w = w' := by
  have h1 := (mem_smartWordTokens_iff text i w).mp h
  have h2 := (mem_smartWordTokens_iff text i w').mp h'
  rw [h1] at h2
  have h3 : ((w, true) : String × Bool) = (w', true) := Option.some_injective _ h2
  exact congrArg Prod.fst h3

theorem fold_selStep_imp (n lastIdx : ℕ) (isQ pq : Bool) (sc : String → Option ℕ) :
    ∀ (l : List (ℕ × String)) (st : SelState) (e : ℕ × String × ℕ),
      e ∈ (l.foldl (selStep n lastIdx isQ pq sc) st).imp →
      e ∈ st.imp ∨ ∃ p, p ∈ l ∧ e.1 = p.1 ∧ e.2.1 = p.2 ∧
        _is_important_word p.2 (posTag n p.1) = false := by
  intro l
  induction l with
  | nil => intro st e he; exact Or.inl he
  | cons p l ih =>
    intro st e he
    rw [List.foldl_cons] at he
    by_cases h1 : _is_important_word p.2 (posTag n p.1) = true
    · have hstep : selStep n lastIdx isQ pq sc st p = { st with keep := st.keep ++ [p.1] } := by
        simp [selStep, h1]
      rw [hstep] at he
      rcases ih _ e he with hin | ⟨q, hq, h⟩
      · exact Or.inl hin
      · exact Or.inr ⟨q, List.mem_cons_of_mem _ hq, h⟩
    · by_cases h2 : (isQ && pq && decide (p.1 = lastIdx)) = true
      · have hstep : selStep n lastIdx isQ pq sc st p = { st with keep := st.keep ++ [p.1] } := by
          simp only [selStep]
          rw [if_neg h1, if_pos h2]
        rw [hstep] at he
        rcases ih _ e he with hin | ⟨q, hq, h⟩
        · exact Or.inl hin
        · exact Or.inr ⟨q, List.mem_cons_of_mem _ hq, h⟩
      · have hstep : selStep n lastIdx isQ pq sc st p =
            { st with imp := st.imp ++ [(p.1, p.2, (sc (pyLower p.2)).getD 50)] } := by
          simp only [selStep]
          rw [if_neg h1, if_neg h2]
        rw [hstep] at he
        rcases ih _ e he with hin | ⟨q, hq, h⟩
        · simp only at hin
          rcases List.mem_append.mp hin with hl | hr
          · exact Or.inl hl
          · have : e = (p.1, p.2, (sc (pyLower p.2)).getD 50) := by
              simpa using hr
            refine Or.inr ⟨p, List.mem_cons_self _ _, ?_, ?_, ?_⟩
            · rw [this]
            · rw [this]
            · simpa using h1
        · exact Or.inr ⟨q, List.mem_cons_of_mem _ hq, h⟩

theorem smartSelect_imp_spec (text : String) (pq : Bool) :
    ∀ e ∈ (smartSelect text pq).imp,
      ∃ w', (e.1, w') ∈ smartWordTokens text ∧
        _is_important_word w' (posTag (smartTokens text).length e.1) = false := by
  intro e he
  unfold smartSelect at he
  rcases fold_selStep_imp _ _ _ _ _ _ _ _ he with hin | ⟨p, hp, h1, h2, h3⟩
  · simp at hin
  · refine ⟨p.2, ?_, ?_⟩
    · rw [h1]
      simpa using hp
    · rw [h1]
      exact h3

theorem fold_removeAppend (keepL : List ℕ) :
    ∀ (l : List (ℕ × String × ℕ)) (rm0 : List ℕ) (j : ℕ),
      j ∈ l.foldl (fun rm t => if t.1 ∈ keepL then rm else rm ++ [t.1]) rm0 →
      j ∈ rm0 ∨ ∃ t, t ∈ l ∧ t.1 = j := by
  intro l
  induction l with
  | nil => intro rm0 j h; exact Or.inl h
  | cons t l ih =>
    intro rm0 j h
    rw [List.foldl_cons] at h
    by_cases hk : t.1 ∈ keepL
    · rw [if_pos hk] at h
      rcases ih _ _ h with h0 | ⟨u, hu, hj⟩
      · exact Or.inl h0
      · exact Or.inr ⟨u, List.mem_cons_of_mem _ hu, hj⟩
    · rw [if_neg hk] at h
      rcases ih _ _ h with h0 | ⟨u, hu, hj⟩
      · rcases List.mem_append.mp h0 with h0 | h0
        · exact Or.inl h0
        · have hj0 : j = t.1 := by simpa using h0
          exact Or.inr ⟨t, List.mem_cons_self _ _, hj0.symm⟩
      · exact Or.inr ⟨u, List.mem_cons_of_mem _ hu, hj⟩

theorem mem_smartWordsToRemove (text : String) (pq : Bool) (j : ℕ)
    (h : j ∈ smartWordsToRemove text pq) :
    ∃ e, e ∈ (smartSelect text pq).imp ∧ e.1 = j := by
  unfold smartWordsToRemove at h
  rcases fold_removeAppend _ _ _ _ h with h0 | ⟨t, ht, hj⟩
  · simp at h0
  · refine ⟨t, ?_, hj⟩
    have h1 : t ∈ List.insertionSort scoreLE (smartSelect text pq).imp :=
      List.mem_of_mem_take ht
    exact (List.perm_insertionSort scoreLE _).mem_iff.mp h1

theorem claimHardPreserved_important (w : String) (pos : String)
    (hp : claimHardPreserved w = true) : _is_important_word w pos = true := by
  simp only [claimHardPreserved, Bool.or_eq_true, Bool.and_eq_true,
    decide_eq_true_eq] at hp
  unfold _is_important_word
  split_ifs with h1 h2 h3 h4 h5 h6 h7 h8
  any_goals rfl
  exfalso
  simp only [Bool.or_eq_true, decide_eq_true_eq, not_or] at h4
  simp only [Bool.and_eq_true, decide_eq_true_eq, not_and] at h7
  rcases hp with ((((hq | hn) | he) | hd) | hcap) | hs
  · exact h1 hq
  · exact h4.1 hn
  · exact absurd he (by simpa using h4.2)
  · exact absurd hd (by simpa using h5)
  · exact absurd hcap.2 (by simpa using h7 hcap.1)
  · exact absurd hs (by simpa using h8)

/-- C1 (amended): a word token satisfying the specification's hard-preserve
condition is never marked for removal, and survives the rebuild step: it is
among the rebuilt `kept_tokens` (the later regex post-processing of lines
319-333 can still drop it from the final string). -/
theorem hard_preserved_words_survive_rebuild (text : String) (pq : Bool)
    (i : ℕ) (w : String)
    (hmem : (i, w) ∈ smartWordTokens text)
    (hp : claimHardPreserved w = true) :
    w ∈ smartKeptTokens text pq := by
  have hnotrm : i ∉ smartWordsToRemove text pq := by
    intro hin
    obtain ⟨e, he, he1⟩ := mem_smartWordsToRemove text pq i hin
    obtain ⟨w', hw', himp⟩ := smartSelect_imp_spec text pq e he
    rw [he1] at hw' himp
    have : w' = w := smartWordTokens_functional text hw' hmem
    rw [this] at himp
    rw [claimHardPreserved_important w _ hp] at himp
    exact absurd himp (by simp)
  have hget : (smartTokens text).get? i = some (w, true) :=
    (mem_smartWordTokens_iff text i w).mp hmem
  have henum : (i, (w, true)) ∈ (smartTokens text).enum :=
    List.mem_enum_iff_get?.mpr hget
  unfold smartKeptTokens
  rw [rebuildTokens_eq_suffix]
  exact mem_rebuildSuffix_of_kept _ _ _ _ _ henum hnotrm

/-- C1 (counterexample to the claim as stated): in `"what The cat"` the
question word `what` is hard-preserved and survives the rebuild, but the
orphan-strip regex of line 326 deletes it in front of the opener `The`, so
it does not occur in the returned text. -/
theorem question_word_removed_from_output :
    ("what", true) ∈ _split_into_words "what The cat" ∧
      claimHardPreserved "what" = true ∧
      optimize_smart_reduction "what The cat" true = "The cat" ∧
      occursIn "what".data (optimize_smart_reduction "what The cat" true).data = false := by
  decide

theorem hard_preserved_words_survive_rebuild_witness :
    (2, "not") ∈ smartWordTokens "do not stop" ∧
      claimHardPreserved "not" = true ∧
      "not" ∈ smartKeptTokens "do not stop" true :=
  ⟨by decide, by decide,
    hard_preserved_words_survive_rebuild "do not stop" true 2 "not"
      (by decide) (by decide)⟩

/-! ## The compression scenario (C4) -/

/-- C4 (counterexample to the claim as stated): with the empty filler
configuration the Filler Remover does not return the scenario input
unchanged (the politeness preamble `Could you ` is stripped
unconditionally), and the trailing `?` does not survive the Smart Reducer
(the rebuild loop keeps no punctuation except separators). -/
theorem scenario_claim_false :
    optimize_rule_based
        "Could you please explain, very briefly, how climate change affects coral reefs?" ≠
      "Could you please explain, very briefly, how climate change affects coral reefs?" ∧
      occursIn "?".data
        (optimize_smart_reduction
          (optimize_rule_based
            "Could you please explain, very briefly, how climate change affects coral reefs?")
          true).data = false := by
  decide

/-- C4 (amended): on the scenario input with the empty filler configuration,
the Filler Remover strips the leading `Could you `; the Smart Reducer then
removes exactly one word — `very`, the single lowest-scoring word at the 15%
target for this 10-word text — while `please` (capitalized), `how`,
`climate`, `change`, `coral` and `reefs` survive; the trailing `?` is
dropped by the rebuild. -/
theorem scenario_pipeline_behavior :
    optimize_rule_based
        "Could you please explain, very briefly, how climate change affects coral reefs?" =
      "please explain, very briefly, how climate change affects coral reefs?" ∧
      smartWordsToRemove
          "please explain, very briefly, how climate change affects coral reefs?" true = [5] ∧
      (smartTokens
          "please explain, very briefly, how climate change affects coral reefs?").get? 5 =
        some ("very", true) ∧
      optimize_smart_reduction
          "please explain, very briefly, how climate change affects coral reefs?" true =
        "Please explain, briefly, how climate change affects coral reefs" := by
  decide

/-! ## The rebuild rule (C2) -/

theorem isSpaceChar_not_word {c : Char} (h : isSpaceChar c = true) :
    isWordChar c = false := by
  simp only [isSpaceChar, Bool.or_eq_true, decide_eq_true_eq] at h
  rcases h with ((((h | h) | h) | h) | h) | h <;> subst h <;> decide

theorem isSepStr_not_word {t : String} (h : isSepStr t = true) :
    isWordStr t = false := by
  simp only [isSepStr, Bool.or_eq_true, decide_eq_true_eq] at h
  rcases h with (h | h) | h <;> subst h <;> decide

theorem tokenizeGo_isWordStr :
    ∀ (fuel : ℕ) (l : List Char) (p : String × Bool),
      p ∈ tokenizeGo fuel l → isWordStr p.1 = p.2 := by
  intro fuel
  induction fuel with
  | zero =>
    intro l p hp
    cases l <;> simp [tokenizeGo] at hp
  | succ fuel ih =>
    intro l p hp
    cases l with
    | nil => simp [tokenizeGo] at hp
    | cons c cs =>
      simp only [tokenizeGo] at hp
      by_cases hw : isWordChar c = true
      · rw [if_pos hw] at hp
        rcases htr : (takeRun isWordChar cs).2 with _ | ⟨a, tail⟩
        · rw [htr] at hp
          rcases List.mem_cons.mp hp with rfl | hp2
          · simpa [isWordStr] using hw
          · exact ih _ _ hp2
        · rcases tail with _ | ⟨d, rest2⟩
          · rw [htr] at hp
            rcases List.mem_cons.mp hp with rfl | hp2
            · simpa [isWordStr] using hw
            · exact ih _ _ hp2
          · rw [htr] at hp
            dsimp only at hp
            by_cases hc : (a = apos && isWordChar d) = true
            · rw [if_pos hc] at hp
              rcases List.mem_cons.mp hp with rfl | hp2
              · simpa [isWordStr] using hw
              · exact ih _ _ hp2
            · rw [if_neg hc] at hp
              rcases List.mem_cons.mp hp with rfl | hp2
              · simpa [isWordStr] using hw
              · exact ih _ _ hp2
      · rw [if_neg hw] at hp
        by_cases hs : isSpaceChar c = true
        · rw [if_pos hs] at hp
          rcases List.mem_cons.mp hp with rfl | hp2
          · simpa [isWordStr] using isSpaceChar_not_word hs
          · exact ih _ _ hp2
        · rw [if_neg hs] at hp
          rcases List.mem_cons.mp hp with rfl | hp2
          · simp only [isWordStr, String.singleton]
            simpa using hw
          · exact ih _ _ hp2

theorem split_into_words_isWordStr (text : String) :
    ∀ p ∈ _split_into_words text, isWordStr p.1 = p.2 := by
  intro p hp
  exact tokenizeGo_isWordStr _ _ p hp

theorem rebuildSuffix_filter_words (rm : List ℕ) :
    ∀ (l : List (ℕ × (String × Bool))) (last : Option String),
      (∀ p ∈ l, isWordStr p.2.1 = p.2.2) →
      (rebuildSuffix rm last l).filter (fun t => isWordStr t) =
        (l.filter (fun p => p.2.2 && !(decide (p.1 ∈ rm)))).map (fun p => p.2.1) := by
  intro l
  induction l with
  | nil => intro last _; simp [rebuildSuffix]
  | cons p l ih =>
    intro last hwf
    have hwfl : ∀ q ∈ l, isWordStr q.2.1 = q.2.2 :=
      fun q hq => hwf q (List.mem_cons_of_mem _ hq)
    have hwfp : isWordStr p.2.1 = p.2.2 := hwf p (List.mem_cons_self _ _)
    by_cases hw : p.2.2 = true
    · by_cases hrm : p.1 ∈ rm
      · simp only [rebuildSuffix, hw, if_true, if_pos hrm]
        rw [ih last hwfl]
        simp [List.filter_cons, hrm]
      · simp only [rebuildSuffix, hw, if_true, if_neg hrm]
        rw [List.filter_cons]
        rw [show isWordStr p.2.1 = true from hwfp.trans hw]
        rw [ih _ hwfl]
        simp [List.filter_cons, hw, hrm]
    · have hwb : p.2.2 = false := Bool.eq_false_iff.mpr hw
      have hnotword : isWordStr p.2.1 = false := hwfp.trans hwb
      by_cases hsep : isSepStr p.2.1 = true
      · simp only [rebuildSuffix, hwb, Bool.false_eq_true, if_false, if_pos hsep]
        cases last with
        | none =>
          rw [ih none hwfl]
          simp [List.filter_cons, hwb]
        | some t =>
          dsimp only
          by_cases ht : isSepStr t = true
          · rw [if_pos ht, ih _ hwfl]
            simp [List.filter_cons, hwb]
          · rw [if_neg ht]
            rw [List.filter_cons]
            rw [hnotword]
            rw [ih _ hwfl]
            simp [List.filter_cons, hwb]
      · simp only [rebuildSuffix, hwb, Bool.false_eq_true, if_false, if_neg hsep]
        rw [ih last hwfl]
        simp [List.filter_cons, hwb]

theorem rebuildSuffix_mem_classify (rm : List ℕ) :
    ∀ (l : List (ℕ × (String × Bool))) (last : Option String),
      (∀ p ∈ l, isWordStr p.2.1 = p.2.2) →
      ∀ t ∈ rebuildSuffix rm last l, isWordStr t = true ∨ isSepStr t = true := by
  intro l
  induction l with
  | nil => intro last _ t ht; simp [rebuildSuffix] at ht
  | cons p l ih =>
    intro last hwf t ht
    have hwfl : ∀ q ∈ l, isWordStr q.2.1 = q.2.2 :=
      fun q hq => hwf q (List.mem_cons_of_mem _ hq)
    have hwfp : isWordStr p.2.1 = p.2.2 := hwf p (List.mem_cons_self _ _)
    by_cases hw : p.2.2 = true
    · by_cases hrm : p.1 ∈ rm
      · simp only [rebuildSuffix] at ht
        rw [if_pos hw, if_pos hrm] at ht
        exact ih last hwfl t ht
      · simp only [rebuildSuffix] at ht
        rw [if_pos hw, if_neg hrm] at ht
        rcases List.mem_cons.mp ht with rfl | ht2
        · exact Or.inl (hwfp.trans hw)
        · exact ih _ hwfl t ht2
    · have hwb : p.2.2 = false := Bool.eq_false_iff.mpr hw
      by_cases hsep : isSepStr p.2.1 = true
      · simp only [rebuildSuffix] at ht
        rw [hwb] at ht
        simp only [Bool.false_eq_true, if_false, if_pos hsep] at ht
        cases last with
        | none => exact ih none hwfl t ht
        | some s =>
          dsimp only at ht
          by_cases hs : isSepStr s = true
          · rw [if_pos hs] at ht
            exact ih _ hwfl t ht
          · rw [if_neg hs] at ht
            rcases List.mem_cons.mp ht with rfl | ht2
            · exact Or.inr hsep
            · exact ih _ hwfl t ht2
      · simp only [rebuildSuffix] at ht
        rw [hwb] at ht
        simp only [Bool.false_eq_true, if_false, if_neg hsep] at ht
        exact ih last hwfl t ht

theorem rebuildSuffix_chain (rm : List ℕ) :
    ∀ (l : List (ℕ × (String × Bool))) (last : Option String),
      (∀ p ∈ l, isWordStr p.2.1 = p.2.2) →
      List.Chain' (fun a b => ¬(isSepStr a = true ∧ isSepStr b = true))
          (rebuildSuffix rm last l) ∧
        (∀ t, (rebuildSuffix rm last l).head? = some t → isSepStr t = true →
          ∃ s, last = some s ∧ isSepStr s = false) := by
  intro l
  induction l with
  | nil => intro last _; constructor <;> simp [rebuildSuffix]
  | cons p l ih =>
    intro last hwf
    have hwfl : ∀ q ∈ l, isWordStr q.2.1 = q.2.2 :=
      fun q hq => hwf q (List.mem_cons_of_mem _ hq)
    have hwfp : isWordStr p.2.1 = p.2.2 := hwf p (List.mem_cons_self _ _)
    by_cases hw : p.2.2 = true
    · by_cases hrm : p.1 ∈ rm
      · simp only [rebuildSuffix]
        rw [if_pos hw, if_pos hrm]
        exact ih last hwfl
      · simp only [rebuildSuffix]
        rw [if_pos hw, if_neg hrm]
        have hword : isWordStr p.2.1 = true := hwfp.trans hw
        have hnotsep : isSepStr p.2.1 = false := by
          cases hsep : isSepStr p.2.1 with
          | false => rfl
          | true => rw [isSepStr_not_word hsep] at hword; exact absurd hword (by simp)
        constructor
        · rw [List.chain'_cons']
          refine ⟨?_, (ih (some p.2.1) hwfl).1⟩
          intro b _
          intro hcon
          rw [hnotsep] at hcon
          exact absurd hcon.1 (by simp)
        · intro t hht hsep
          have heq : t = p.2.1 := by
            have := hht
            simp only [List.head?_cons, Option.some_inj] at this
            exact this.symm
          rw [heq, hnotsep] at hsep
          exact absurd hsep (by simp)
    · have hwb : p.2.2 = false := Bool.eq_false_iff.mpr hw
      by_cases hsep : isSepStr p.2.1 = true
      · simp only [rebuildSuffix]
        rw [hwb]
        simp only [Bool.false_eq_true, if_false, if_pos hsep]
        cases last with
        | none => exact ih none hwfl
        | some s =>
          dsimp only
          by_cases hs : isSepStr s = true
          · rw [if_pos hs]
            exact ih _ hwfl
          · rw [if_neg hs]
            constructor
            · rw [List.chain'_cons']
              refine ⟨?_, (ih (some p.2.1) hwfl).1⟩
              intro b hb
              intro hcon
              obtain ⟨s', hs', hns'⟩ := (ih (some p.2.1) hwfl).2 b hb hcon.2
              have : s' = p.2.1 := by
                injection hs' with h
                exact h.symm
              rw [this] at hns'
              rw [hns'] at hcon
              exact absurd hcon.1 (by simp)
            · intro t hht _
              exact ⟨s, rfl, Bool.eq_false_iff.mpr hs⟩
      · simp only [rebuildSuffix]
        rw [hwb]
        simp only [Bool.false_eq_true, if_false, if_neg hsep]
        exact ih last hwfl

/-- C2 (amended): in the rebuild step, (i) the word tokens not marked for
removal are kept in their original relative order — the word-token
subsequence of the rebuilt list equals the not-removed word tokens in input
order; (ii) every other kept token is a separator (`:`/`,`/`;`): all
non-separator punctuation and all whitespace tokens are dropped; (iii) no
kept separator immediately follows another separator, and (iv) no separator
is kept before any word has been kept. -/
theorem rebuild_keeps_words_and_separators_only (text : String) (rm : List ℕ) :
    (rebuildTokens (_split_into_words text) rm).filter (fun t => isWordStr t) =
        (((_split_into_words text).enum.filter
            (fun p => p.2.2 && !(decide (p.1 ∈ rm)))).map (fun p => p.2.1)) ∧
      (∀ t ∈ rebuildTokens (_split_into_words text) rm,
          isWordStr t = true ∨ isSepStr t = true) ∧
      List.Chain' (fun a b => ¬(isSepStr a = true ∧ isSepStr b = true))
        (rebuildTokens (_split_into_words text) rm) ∧
      (∀ t, (rebuildTokens (_split_into_words text) rm).head? = some t →
          isSepStr t = false) := by
  have hwf : ∀ p ∈ (_split_into_words text).enum, isWordStr p.2.1 = p.2.2 := by
    intro p hp
    have hget := List.mem_enum_iff_get?.mp hp
    have hmem : p.2 ∈ _split_into_words text := List.get?_mem hget
    exact split_into_words_isWordStr text p.2 hmem
  rw [rebuildTokens_eq_suffix]
  refine ⟨rebuildSuffix_filter_words rm _ none hwf,
    rebuildSuffix_mem_classify rm _ none hwf,
    (rebuildSuffix_chain rm _ none hwf).1, ?_⟩
  intro t hht
  cases hsep : isSepStr t with
  | false => rfl
  | true =>
    obtain ⟨s, hs, _⟩ := (rebuildSuffix_chain rm _ none hwf).2 t hht hsep
    exact absurd hs (by simp)

theorem rebuild_keeps_words_and_separators_only_witness :
    (rebuildTokens (_split_into_words "Hi: there.") []).filter
        (fun t => isWordStr t) =
      ((( _split_into_words "Hi: there.").enum.filter
          (fun p => p.2.2 && !(decide (p.1 ∈ ([] : List ℕ))))).map
        (fun p => p.2.1)) :=
  (rebuild_keeps_words_and_separators_only "Hi: there." []).1

/-- C2 (counterexample to the claim as stated): the rebuild step does not
keep every punctuation token — the terminal `.` of `"Hi."` is dropped even
with nothing marked for removal. -/
theorem rebuild_drops_terminal_punctuation :
    (".", false) ∈ _split_into_words "Hi." ∧
      rebuildTokens (_split_into_words "Hi.") [] = ["Hi"] := by
  decide

/-! ## Normalizer idempotence (C3) -/

/-- An already-normalized string in the plain sense: nonempty, consisting of
letters and spaces only, beginning with an uppercase letter, ending with a
letter, and not beginning (case-insensitively) with one of the six stripped
auxiliary phrases. -/
def NormalizedPlain (s : String) : Prop :=
  s.data ≠ [] ∧
    (∀ c ∈ s.data, c.isAlpha = true ∨ c = ' ') ∧
    (s.data.headD ' ').isAlpha = true ∧
    (s.data.headD ' ').isLower = false ∧
    (s.data.reverse.headD ' ').isAlpha = true ∧
    (∀ p ∈ auxPhrases, ciHeadMatch p.data s.data = false)

instance : DecidablePred NormalizedPlain := fun s => by
  unfold NormalizedPlain
  infer_instance

theorem alpha_not_space {c : Char} (h : c.isAlpha = true) :
    isSpaceChar c = false := by
  cases hs : isSpaceChar c with
  | false => rfl
  | true =>
    exfalso
    simp only [isSpaceChar, Bool.or_eq_true, decide_eq_true_eq] at hs
    rcases hs with ((((hs | hs) | hs) | hs) | hs) | hs <;> subst hs <;>
      exact absurd h (by decide)

theorem alphaOrSpace_not_punct {c : Char} (h : c.isAlpha = true ∨ c = ' ') :
    isPunct c = false := by
  cases hp : isPunct c with
  | false => rfl
  | true =>
    exfalso
    simp only [isPunct, Bool.or_eq_true, decide_eq_true_eq] at hp
    rcases hp with ((((hp | hp) | hp) | hp) | hp) | hp <;> subst hp <;>
      rcases h with h | h <;> exact absurd h (by decide)

theorem alphaOrSpace_not_term {c : Char} (h : c.isAlpha = true ∨ c = ' ') :
    isTermPunct c = false := by
  cases hp : isTermPunct c with
  | false => rfl
  | true =>
    exfalso
    simp only [isTermPunct, Bool.or_eq_true, decide_eq_true_eq] at hp
    rcases hp with (hp | hp) | hp <;> subst hp <;>
      rcases h with h | h <;> exact absurd h (by decide)

theorem alpha_word {c : Char} (h : c.isAlpha = true) : isWordChar c = true := by
  simp [isWordChar, Char.isAlphanum, h]

theorem dropWhile_eq_self_of_head {p : Char → Bool} {l : List Char}
    (hne : l ≠ []) (hh : p (l.headD ' ') = false) : l.dropWhile p = l := by
  cases l with
  | nil => exact absurd rfl hne
  | cons c cs =>
    simp only [List.headD_cons] at hh
    simp [List.dropWhile_cons, hh]

theorem pyStripChars_eq_self {l : List Char} (hne : l ≠ [])
    (hh : isSpaceChar (l.headD ' ') = false)
    (hl : isSpaceChar (l.reverse.headD ' ') = false) : pyStripChars l = l := by
  unfold pyStripChars dropLeading dropTrailing
  rw [dropWhile_eq_self_of_head hne hh]
  rw [dropWhile_eq_self_of_head (by simpa using hne) hl, List.reverse_reverse]

theorem collapseTermRunsGo_id (fuel : ℕ) :
    ∀ l : List Char, (∀ c ∈ l, isTermPunct c = false) →
      collapseTermRunsGo fuel l = l := by
  induction fuel with
  | zero => intro l _; cases l <;> rfl
  | succ fuel ih =>
    intro l h
    cases l with
    | nil => rfl
    | cons c cs =>
      have hc : isTermPunct c = false := h c (List.mem_cons_self _ _)
      simp only [collapseTermRunsGo, hc, Bool.false_eq_true, if_false]
      rw [ih cs (fun d hd => h d (List.mem_cons_of_mem _ hd))]

theorem rmSpaceBeforePunctGo_id (fuel : ℕ) :
    ∀ l : List Char, (∀ c ∈ l, isPunct c = false) →
      rmSpaceBeforePunctGo fuel l = l := by
  induction fuel with
  | zero => intro l _; cases l <;> rfl
  | succ fuel ih =>
    intro l h
    cases l with
    | nil => rfl
    | cons c cs =>
      have hsplit : (takeRun isSpaceChar cs).1 ++ (takeRun isSpaceChar cs).2 = cs :=
        takeRun_append _ _
      by_cases hsp : isSpaceChar c = true
      · simp only [rmSpaceBeforePunctGo, hsp, if_true]
        rcases hr : (takeRun isSpaceChar cs).2 with _ | ⟨p, rest⟩
        · rw [hr] at hsplit
          simp only [List.append_nil] at hsplit
          rw [hsplit]
        · rw [hr] at hsplit
          have hpmem : p ∈ cs := by
            rw [← hsplit]
            exact List.mem_append_right _ (List.mem_cons_self _ _)
          have hp : isPunct p = false := h p (List.mem_cons_of_mem _ hpmem)
          dsimp only
          rw [hp]
          simp only [Bool.false_eq_true, if_false]
          rw [ih rest (fun d hd => by
            have hdmem : d ∈ cs := by
              rw [← hsplit]
              exact List.mem_append_right _ (List.mem_cons_of_mem _ hd)
            exact h d (List.mem_cons_of_mem _ hdmem))]
          rw [List.cons_append, hsplit]
      · simp only [rmSpaceBeforePunctGo, hsp, Bool.false_eq_true, if_false]
        rw [ih cs (fun d hd => h d (List.mem_cons_of_mem _ hd))]

theorem tidyAddSpaceAfterPunct_id :
    ∀ l : List Char, (∀ c ∈ l, isPunct c = false) →
      tidyAddSpaceAfterPunct l = l := by
  intro l
  induction l with
  | nil => intro _; rfl
  | cons c cs ih =>
    intro h
    cases cs with
    | nil => rfl
    | cons d rest =>
      have hc : isPunct c = false := h c (List.mem_cons_self _ _)
      simp only [tidyAddSpaceAfterPunct, hc, Bool.false_eq_true, if_false]
      rw [ih (fun x hx => h x (List.mem_cons_of_mem _ hx))]

theorem capitalizeIfLower_id {l : List Char}
    (hh : (l.headD ' ').isLower = false) : capitalizeIfLower l = l := by
  cases l with
  | nil => rfl
  | cons c cs =>
    simp only [List.headD_cons] at hh
    simp [capitalizeIfLower, hh]

/-- C3 (amended): the Normalizer is not idempotent on all strings, but it
makes no further change on already-normalized strings: on a nonempty string
of letters and spaces that begins with an uppercase letter, ends with a
letter, and does not begin case-insensitively with one of the six stripped
auxiliary phrases, `tidy_text` is the identity — and hence idempotent
there. -/
theorem tidy_text_id_on_normalized (s : String) (h : NormalizedPlain s) :
    tidy_text s = s ∧ tidy_text (tidy_text s) = tidy_text s := by
  obtain ⟨hne, hall, hheadA, hheadL, hlastA, haux⟩ := h
  have hid : tidy_text s = s := by
    have hsne : ¬s = "" := by
      intro hs
      rw [hs] at hne
      exact hne rfl
    unfold tidy_text
    rw [if_neg hsne]
    dsimp only
    have h1 : pyStripChars s.data = s.data :=
      pyStripChars_eq_self hne (alpha_not_space hheadA) (alpha_not_space hlastA)
    rw [h1]
    have h2 : collapseTermRuns s.data = s.data :=
      collapseTermRunsGo_id _ _ (fun c hc => alphaOrSpace_not_term (hall c hc))
    rw [show collapseTermRuns s.data = s.data from h2]
    have h3 : s.data.dropWhile (fun c => !isWordChar c) = s.data := by
      refine dropWhile_eq_self_of_head hne ?_
      rw [alpha_word hheadA]
      rfl
    rw [show dropLeading (fun c => !isWordChar c) s.data = s.data from h3]
    have h4 : rmSpaceBeforePunct s.data = s.data :=
      rmSpaceBeforePunctGo_id _ _ (fun c hc => alphaOrSpace_not_punct (hall c hc))
    rw [show rmSpaceBeforePunct s.data = s.data from h4]
    have h5 : tidyAddSpaceAfterPunct s.data = s.data :=
      tidyAddSpaceAfterPunct_id _ (fun c hc => alphaOrSpace_not_punct (hall c hc))
    rw [h5]
    have h6 : auxPhrases.foldl (fun l p => stripCiLead p l) s.data = s.data := by
      simp only [auxPhrases, List.foldl_cons, List.foldl_nil]
      rw [show stripCiLead "you could " s.data = s.data from by
        unfold stripCiLead
        rw [if_neg (by rw [haux "you could " (by simp [auxPhrases])]; simp)]]
      rw [show stripCiLead "you would " s.data = s.data from by
        unfold stripCiLead
        rw [if_neg (by rw [haux "you would " (by simp [auxPhrases])]; simp)]]
      rw [show stripCiLead "you can " s.data = s.data from by
        unfold stripCiLead
        rw [if_neg (by rw [haux "you can " (by simp [auxPhrases])]; simp)]]
      rw [show stripCiLead "you should " s.data = s.data from by
        unfold stripCiLead
        rw [if_neg (by rw [haux "you should " (by simp [auxPhrases])]; simp)]]
      rw [show stripCiLead "I need to " s.data = s.data from by
        unfold stripCiLead
        rw [if_neg (by rw [haux "I need to " (by simp [auxPhrases])]; simp)]]
      rw [show stripCiLead "I want to " s.data = s.data from by
        unfold stripCiLead
        rw [if_neg (by rw [haux "I want to " (by simp [auxPhrases])]; simp)]]
    rw [h6]
    rw [capitalizeIfLower_id hheadL]
    rw [show dropTrailing isSpaceChar s.data = s.data from by
      unfold dropTrailing
      rw [dropWhile_eq_self_of_head (by simpa using hne) (alpha_not_space hlastA),
        List.reverse_reverse]]
  exact ⟨hid, by rw [hid]; exact hid⟩

theorem tidy_text_id_on_normalized_witness :
    NormalizedPlain "Explain climate impacts" ∧
      (tidy_text "Explain climate impacts" = "Explain climate impacts" ∧
        tidy_text (tidy_text "Explain climate impacts") =
          tidy_text "Explain climate impacts") :=
  ⟨by decide, tidy_text_id_on_normalized "Explain climate impacts" (by decide)⟩

/-- C3 (counterexample to the claim as stated): `tidy_text` is not
idempotent. On `"a. ."` the space-before-punctuation removal creates the new
punctuation run `..`, which a second application collapses: the first
application gives `"A.."`, the second `"A."`. -/
theorem tidy_text_not_idempotent :
    tidy_text (tidy_text "a. .") ≠ tidy_text "a. ." ∧
      tidy_text "a. ." = "A.." ∧ tidy_text (tidy_text "a. .") = "A." := by
  decide

/-! ## Extractive order preservation (C6) -/

theorem map_getD_sublist_shift (d : String) :
    ∀ (is : List ℕ) (l : List String) (k : ℕ),
      is.Pairwise (· < ·) → (∀ i ∈ is, k ≤ i ∧ i < k + l.length) →
      (is.map (fun i => l.getD (i - k) d)).Sublist l := by
  intro is
  induction is with
  | nil => intro l k _ _; simp
  | cons i is ih =>
    intro l k hpw hbd
    obtain ⟨hki, hil⟩ := hbd i (List.mem_cons_self _ _)
    have hgt : ∀ j ∈ is, i < j := (List.pairwise_cons.mp hpw).1
    have hpw2 : is.Pairwise (· < ·) := (List.pairwise_cons.mp hpw).2
    have hik : i - k < l.length := by omega
    have hdecomp : l = l.take (i - k) ++ l.getD (i - k) d :: l.drop (i - k + 1) := by
      rw [List.getD_eq_getElem l d hik]
      rw [← List.drop_eq_getElem_cons hik]
      exact (List.take_append_drop (i - k) l).symm
    have hmapeq : is.map (fun j => l.getD (j - k) d) =
        is.map (fun j => (l.drop (i - k + 1)).getD (j - (i + 1)) d) := by
      refine List.map_congr_left ?_
      intro j hj
      have hji : i + 1 ≤ j := hgt j hj
      obtain ⟨hkj, hjl⟩ := hbd j (List.mem_cons_of_mem _ hj)
      have hb1 : j - k < l.length := by omega
      have hb2 : j - (i + 1) < (l.drop (i - k + 1)).length := by
        rw [List.length_drop]
        omega
      rw [List.getD_eq_getElem l d hb1, List.getD_eq_getElem _ d hb2]
      rw [List.getElem_drop]
      congr 1
      omega
    have hsub2 : (is.map (fun j => (l.drop (i - k + 1)).getD (j - (i + 1)) d)).Sublist
        (l.drop (i - k + 1)) := by
      refine ih (l.drop (i - k + 1)) (i + 1) hpw2 ?_
      intro j hj
      refine ⟨hgt j hj, ?_⟩
      rw [List.length_drop]
      have := (hbd j (List.mem_cons_of_mem _ hj)).2
      omega
    rw [List.map_cons, hmapeq]
    have step1 : (l.getD (i - k) d ::
        is.map (fun j => (l.drop (i - k + 1)).getD (j - (i + 1)) d)).Sublist
        (l.getD (i - k) d :: l.drop (i - k + 1)) := hsub2.cons₂ _
    have step2 : (l.getD (i - k) d :: l.drop (i - k + 1)).Sublist
        (l.take (i - k) ++ l.getD (i - k) d :: l.drop (i - k + 1)) :=
      List.sublist_append_right _ _
    have hfin := step1.trans step2
    rw [← hdecomp] at hfin
    exact hfin

theorem map_getD_sublist_of_pairwise_lt (d : String) (is : List ℕ)
    (l : List String) (hpw : is.Pairwise (· < ·))
    (hbd : ∀ i ∈ is, i < l.length) :
    (is.map (fun i => l.getD i d)).Sublist l := by
  have h := map_getD_sublist_shift d is l 0 hpw
    (fun i hi => ⟨Nat.zero_le _, by simpa using hbd i hi⟩)
  simpa using h

theorem select_map_sublist (sentences : List String) (sims : List ℚ)
    (maxS : ℕ) (hlen : sims.length = sentences.length) :
    ((List.insertionSort (· ≤ ·)
        ((List.insertionSort (rankGE sims) (List.range sims.length)).take maxS)).map
      (fun i => sentences.getD i "")).Sublist sentences := by
  have hperm1 : List.Perm (List.insertionSort (rankGE sims) (List.range sims.length))
      (List.range sims.length) := List.perm_insertionSort _ _
  have hnodup1 : (List.insertionSort (rankGE sims) (List.range sims.length)).Nodup :=
    hperm1.nodup_iff.mpr (List.nodup_range _)
  have hnodup2 :
      ((List.insertionSort (rankGE sims) (List.range sims.length)).take maxS).Nodup :=
    hnodup1.sublist (List.take_sublist _ _)
  have hperm2 : List.Perm (List.insertionSort (· ≤ ·)
        ((List.insertionSort (rankGE sims) (List.range sims.length)).take maxS))
      ((List.insertionSort (rankGE sims) (List.range sims.length)).take maxS) :=
    List.perm_insertionSort _ _
  have hnodup3 : (List.insertionSort (· ≤ ·)
      ((List.insertionSort (rankGE sims) (List.range sims.length)).take maxS)).Nodup :=
    hperm2.nodup_iff.mpr hnodup2
  have hsorted : List.Sorted (· ≤ ·) (List.insertionSort (· ≤ ·)
      ((List.insertionSort (rankGE sims) (List.range sims.length)).take maxS)) :=
    List.sorted_insertionSort _ _
  have hpwlt : (List.insertionSort (· ≤ ·)
      ((List.insertionSort (rankGE sims) (List.range sims.length)).take maxS)).Pairwise
      (· < ·) := by
    have hand := List.Pairwise.and hsorted hnodup3
    exact hand.imp (fun h => lt_of_le_of_ne h.1 h.2)
  refine map_getD_sublist_of_pairwise_lt "" _ _ hpwlt ?_
  intro i hi
  have h1 := hperm2.mem_iff.mp hi
  have h2 := List.mem_of_mem_take h1
  have h3 := hperm1.mem_iff.mp h2
  have h4 := List.mem_range.mp h3
  rw [hlen] at h4
  exact h4

/-- C6: whenever the Extractive Selector reaches its selection branch (model
available, text nonempty, at least two sentences), its output is a sublist
of the sentence list — the selected sentences in their original document
order — joined with single spaces, for every possible encoder (i.e.
regardless of similarity-rank order). -/
theorem extractive_preserves_sentence_order (enc : Encoder) (text : String)
    (maxS : ℕ) (hne : text ≠ "") (hs : _split_sentences text ≠ [])
    (hs1 : (_split_sentences text).length ≠ 1) :
    ∃ sel : List String, sel.Sublist (_split_sentences text) ∧
      optimize_extractive (some enc) text maxS = String.intercalate " " sel := by
  unfold optimize_extractive
  rw [if_neg hne]
  dsimp only
  rw [if_neg hs, if_neg hs1]
  exact ⟨_, select_map_sublist (_split_sentences text)
    (enc.sentSims (_split_sentences text) text) maxS
    (enc.length_sentSims _ _), rfl⟩

/-- An encoder giving every sentence similarity zero, for the witness. -/
def constEncoder : Encoder :=
  Encoder.mk (fun ss _ => List.map (fun _ => (0 : ℚ)) ss)
    (fun ss _ => List.length_map _ _)

theorem extractive_preserves_sentence_order_witness :
    "One. Two! Three." ≠ "" ∧ _split_sentences "One. Two! Three." ≠ [] ∧
      (_split_sentences "One. Two! Three.").length ≠ 1 ∧
      (∃ sel : List String, sel.Sublist (_split_sentences "One. Two! Three.") ∧
        optimize_extractive (some constEncoder) "One. Two! Three." 2 =
          String.intercalate " " sel) :=
  ⟨by decide, by decide, by decide,
    extractive_preserves_sentence_order constEncoder "One. Two! Three." 2
      (by decide) (by decide) (by decide)⟩

/-! ## The capitalized-word override (C7) -/

theorem scoreUpdate_isSome {m : String → Option ℕ} {k : String} {v : ℕ}
    {w : String} (h : (m w).isSome) : ((scoreUpdate m k v) w).isSome := by
  unfold scoreUpdate
  split
  · simp
  · exact h

theorem fold_isSome {step : (String → Option ℕ) → String → (String → Option ℕ)}
    (hstep : ∀ m x w, (m w).isSome → ((step m x) w).isSome) :
    ∀ (l : List String) (m : String → Option ℕ) (w : String),
      (m w).isSome → ((l.foldl step m) w).isSome := by
  intro l
  induction l with
  | nil => intro m w h; exact h
  | cons x l ih => intro m w h; exact ih _ _ (hstep m x w h)

theorem applyRemovable_isSome {m : String → Option ℕ} {w : String}
    (h : (m w).isSome) : ((applyRemovable m) w).isSome := by
  unfold applyRemovable
  refine fold_isSome ?_ _ _ _ h
  intro m x u hu
  dsimp only
  split
  · exact scoreUpdate_isSome hu
  · exact hu

theorem applyImperative_isSome (ws : List String) {m : String → Option ℕ}
    {w : String} (h : (m w).isSome) : ((applyImperative ws m) w).isSome := by
  unfold applyImperative
  cases ws with
  | nil => exact h
  | cons w0 rest =>
    dsimp only
    split
    · exact scoreUpdate_isSome h
    · exact h

theorem applyStructure_isSome {m : String → Option ℕ} {w : String}
    (h : (m w).isSome) : ((applyStructure m) w).isSome := by
  unfold applyStructure
  refine fold_isSome ?_ _ _ _ h
  intro m x u hu
  dsimp only
  split
  · exact scoreUpdate_isSome hu
  · exact hu

theorem applyCapitalized_untouched :
    ∀ (caps : List String) (m : String → Option ℕ) (w : String), w ∉ caps →
      (applyCapitalized caps m) w = m w := by
  intro caps
  induction caps with
  | nil => intro m w _; rfl
  | cons c caps ih =>
    intro m w hw
    have hwc : w ≠ c := fun h => hw (h ▸ List.mem_cons_self _ _)
    have hwcaps : w ∉ caps := fun h => hw (List.mem_cons_of_mem _ h)
    unfold applyCapitalized at ih ⊢
    rw [List.foldl_cons]
    rw [ih _ w hwcaps]
    split
    · simp [scoreUpdate, hwc]
    · rfl

theorem applyCapitalized_eq :
    ∀ (caps : List String) (m : String → Option ℕ) (w : String), w ∈ caps →
      (m w).isSome → (applyCapitalized caps m) w = some 90 := by
  intro caps
  induction caps with
  | nil => intro m w hw; simp at hw
  | cons c caps ih =>
    intro m w hw hsome
    unfold applyCapitalized at ih ⊢
    rw [List.foldl_cons]
    by_cases hwcaps : w ∈ caps
    · refine ih _ w hwcaps ?_
      dsimp only
      split
      · exact scoreUpdate_isSome hsome
      · exact hsome
    · have hwc : w = c := by
        rcases List.mem_cons.mp hw with h | h
        · exact h
        · exact absurd h hwcaps
      have huntouched := applyCapitalized_untouched caps
        (if (m c).isSome = true then scoreUpdate m c 90 else m) w hwcaps
      unfold applyCapitalized at huntouched
      rw [huntouched]
      subst hwc
      rw [if_pos hsome]
      simp [scoreUpdate]

theorem fold_lb {step : (String → Option ℕ) → String → (String → Option ℕ)}
    (hstep : ∀ m x w val, m w = some val → 90 ≤ val →
      ∃ v, (step m x) w = some v ∧ 90 ≤ v) :
    ∀ (l : List String) (m : String → Option ℕ) (w : String) (val : ℕ),
      m w = some val → 90 ≤ val →
      ∃ v, ((l.foldl step m) w) = some v ∧ 90 ≤ v := by
  intro l
  induction l with
  | nil => intro m w val h hb; exact ⟨val, h, hb⟩
  | cons x l ih =>
    intro m w val h hb
    obtain ⟨v, hv, hbv⟩ := hstep m x w val h hb
    exact ih _ _ _ hv hbv

theorem applyNumbers_lb (ws : List String) {m : String → Option ℕ} {w : String}
    {val : ℕ} (h : m w = some val) (hb : 90 ≤ val) :
    ∃ v, (applyNumbers ws m) w = some v ∧ 90 ≤ v := by
  unfold applyNumbers
  refine fold_lb ?_ _ _ _ _ h hb
  intro m x u uval hu hbu
  dsimp only
  split
  · by_cases hux : u = x
    · subst hux
      exact ⟨95, by simp [scoreUpdate], by omega⟩
    · exact ⟨uval, by simp [scoreUpdate, hux, hu], hbu⟩
  · exact ⟨uval, hu, hbu⟩

theorem applySuffix_lb (ws : List String) {m : String → Option ℕ} {w : String}
    {val : ℕ} (h : m w = some val) (hb : 90 ≤ val) :
    ∃ v, (applySuffix ws m) w = some v ∧ 90 ≤ v := by
  unfold applySuffix
  refine fold_lb ?_ _ _ _ _ h hb
  intro m x u uval hu hbu
  dsimp only
  split
  · by_cases hux : u = x
    · subst hux
      refine ⟨max ((m u).getD 0) 85, by simp [scoreUpdate], ?_⟩
      rw [hu]
      simp only [Option.getD_some]
      omega
    · exact ⟨uval, by simp [scoreUpdate, hux, hu], hbu⟩
  · exact ⟨uval, hu, hbu⟩

theorem applyLeadingWords_lb (ws : List String) {m : String → Option ℕ}
    {w : String} {val : ℕ} (h : m w = some val) (hb : 90 ≤ val) :
    ∃ v, (applyLeadingWords ws m) w = some v ∧ 90 ≤ v := by
  unfold applyLeadingWords
  refine fold_lb ?_ _ _ _ _ h hb
  intro m x u uval hu hbu
  dsimp only
  split
  · by_cases hux : u = x
    · subst hux
      refine ⟨max ((m u).getD 0) 85, by simp [scoreUpdate], ?_⟩
      rw [hu]
      simp only [Option.getD_some]
      omega
    · exact ⟨uval, by simp [scoreUpdate, hux, hu], hbu⟩
  · exact ⟨uval, hu, hbu⟩

theorem applyFrequent_lb (ws : List String) {m : String → Option ℕ}
    {w : String} {val : ℕ} (h : m w = some val) (hb : 90 ≤ val) :
    ∃ v, (applyFrequent ws m) w = some v ∧ 90 ≤ v := by
  unfold applyFrequent
  refine fold_lb ?_ _ _ _ _ h hb
  intro m x u uval hu hbu
  dsimp only
  split
  · by_cases hux : u = x
    · subst hux
      refine ⟨max ((m u).getD 0) 90, by simp [scoreUpdate], ?_⟩
      rw [hu]
      simp only [Option.getD_some]
      omega
    · exact ⟨uval, by simp [scoreUpdate, hux, hu], hbu⟩
  · exact ⟨uval, hu, hbu⟩

/-- C7 (amended): every word of the text whose capitalized form appears in
the original text ends with a final score of at least `0.9` (`90`
hundredths): the capitalized-word override assigns exactly `0.9`, the
numbers override can only raise it to `0.95`, and the remaining overrides
are `max`-updates with `0.85` or `0.9`. (The assignment is direct, not a
`max`: the claim's second half — that this override never lowers an
earlier-set higher score — is false, see the counterexample.) -/
theorem capitalized_words_score_at_least_90 (text : String) (w : String)
    (hw : w ∈ wordsInText text) (hc : w ∈ capitalizedWords text) :
    ∃ v, _get_word_importance_scores text w = some v ∧ 90 ≤ v := by
  unfold _get_word_importance_scores
  have h0 : ((baselineScores (wordsInText text)) w).isSome := by
    simp [baselineScores, hw]
  have h1 := applyRemovable_isSome h0
  have h2 := applyImperative_isSome (wordsInText text) h1
  have h3 := applyStructure_isSome h2
  have h4 := applyCapitalized_eq (capitalizedWords text) _ w hc h3
  obtain ⟨v5, hv5, hb5⟩ := applyNumbers_lb (wordsInText text) h4 (by omega)
  obtain ⟨v6, hv6, hb6⟩ := applySuffix_lb (wordsInText text) hv5 hb5
  obtain ⟨v7, hv7, hb7⟩ := applyLeadingWords_lb (wordsInText text) hv6 hb6
  exact applyFrequent_lb (wordsInText text) hv7 hb7

theorem capitalized_words_score_at_least_90_witness :
    "nasa" ∈ wordsInText "Describe NASA missions" ∧
      "nasa" ∈ capitalizedWords "Describe NASA missions" ∧
      (∃ v, _get_word_importance_scores "Describe NASA missions" "nasa" = some v ∧
        90 ≤ v) :=
  ⟨by decide, by decide,
    capitalized_words_score_at_least_90 "Describe NASA missions" "nasa"
      (by decide) (by decide)⟩

/-- C7 (counterexample to the claim as stated): the capitalized-word
override is a direct assignment of `0.9`, not a `max`, so it lowers scores
set higher by earlier overrides. In `"Explain Python"` the leading
imperative verb `explain` is first assigned `1.0` (`100`), then overwritten
to `0.9` (`90`) because its capitalized form appears in the text. -/
theorem capitalized_override_lowers_imperative :
    (wordsInText "Explain Python").headD "" = "explain" ∧
      "explain" ∈ imperative_verbs ∧
      "explain" ∈ capitalizedWords "Explain Python" ∧
      _get_word_importance_scores "Explain Python" "explain" = some 90 ∧
      (90 : ℕ) < 100 := by
  decide

/-! ## The cached model handle (C8) -/

/-- C8 (amended): the handle is a process-wide cache with lazy
initialization — a call with an empty cache attempts initialization, a
successful initialization is cached and later calls return it without any
new attempt — but an initialization failure is NOT cached: it leaves the
cache empty (and returns the unavailable result), so every subsequent call
attempts initialization again. Dependent stages degrade on the unavailable
handle: the Extractive Selector returns its input unchanged, and the
Validator assumes validity (similarity `1.0`) whenever it would need the
encoder. -/
theorem model_cache_behavior {M : Type} (a : Option M) (m : M) (text : String)
    (k : ℕ) (x y : String) (hx : x ≠ "") (hy : y ≠ "")
    (hneq : pyLower (pyStrip x) ≠ pyLower (pyStrip y)) :
    (get_model a (none : Option M)).attempted = true ∧
      (get_model (none : Option M) none).result = none ∧
      (get_model (none : Option M) none).cache = none ∧
      get_model a (some m) = ⟨some m, some m, false⟩ ∧
      optimize_extractive none text k = text ∧
      calculate_semantic_similarity none x y = 1 := by
  refine ⟨?_, rfl, rfl, rfl, ?_, ?_⟩
  · cases a <;> rfl
  · unfold optimize_extractive
    split <;> rfl
  · unfold calculate_semantic_similarity
    rw [if_neg (by simp [hx, hy]), if_neg hneq]

theorem model_cache_behavior_witness :
    "ab" ≠ "" ∧ "cd" ≠ "" ∧ pyLower (pyStrip "ab") ≠ pyLower (pyStrip "cd") ∧
      ((get_model (none : Option Unit) (none : Option Unit)).attempted = true ∧
        (get_model (none : Option Unit) none).result = none ∧
        (get_model (none : Option Unit) none).cache = none ∧
        get_model (none : Option Unit) (some ()) = ⟨some (), some (), false⟩ ∧
        optimize_extractive none "Hello there" 2 = "Hello there" ∧
        calculate_semantic_similarity none "ab" "cd" = 1) :=
  ⟨by decide, by decide, by decide,
    model_cache_behavior (none : Option Unit) () "Hello there" 2 "ab" "cd"
      (by decide) (by decide) (by decide)⟩

/-- C8 (counterexample to the claim as stated): a failed initialization is
not cached as unavailable — the cache stays empty, so the next call
re-attempts initialization. -/
theorem get_model_reattempts_after_failure :
    (get_model (none : Option Unit) none).cache = none ∧
      (get_model (none : Option Unit)
        ((get_model (none : Option Unit) none).cache)).attempted = true :=
  ⟨rfl, rfl⟩

/-! ## The pipeline's token accounting (C9) -/

/-- C9 (amended): for every tokenizer, encoder state and nonempty prompt,
the reported saving is exactly `max(0, orig_tokens - compressed_tokens)`,
and the aggressive-fallback stage never increases the token count (it
replaces the extractive-stage text only under a strict-decrease guard). The
rule-based/tidy and extractive stages carry no such guard, and can increase
the count (see the counterexample). -/
theorem pipeline_saved_and_guarded (tc : String → ℕ) (enc : Option Encoder)
    (prompt : String) (h : pyStrip prompt ≠ "") :
    (runPipeline tc enc prompt).tokensSaved =
        max 0 ((tc (runPipeline tc enc prompt).original : ℤ) -
          (tc (runPipeline tc enc prompt).compressed : ℤ)) ∧
      tc (runPipeline tc enc prompt).compressed ≤
        tc (runPipeline tc enc prompt).extracted := by
  unfold runPipeline
  dsimp only
  constructor
  · rfl
  · split
    all_goals
      split
      · split
        · exact le_of_lt (by assumption)
        · exact le_refl _
      · exact le_refl _

theorem pipeline_saved_and_guarded_witness :
    pyStrip "Explain climate change." ≠ "" ∧
      ((runPipeline String.length none "Explain climate change.").tokensSaved =
          max 0
            ((String.length
                (runPipeline String.length none "Explain climate change.").original : ℤ) -
              (String.length
                (runPipeline String.length none "Explain climate change.").compressed : ℤ)) ∧
        String.length
            (runPipeline String.length none "Explain climate change.").compressed ≤
          String.length
            (runPipeline String.length none "Explain climate change.").extracted) :=
  ⟨by decide,
    pipeline_saved_and_guarded String.length none "Explain climate change." (by decide)⟩

/-- C9 (counterexample to the claim as stated): the token count after the
rule-based + tidy stage is not always ≤ the count before it: the tidy step
inserts a space after punctuation, so on the prompt `"a:b"` (with a
length-based conforming tokenizer `count(text) ≥ 0`) the cleaned text
`"A: b"` counts strictly more than the original. -/
theorem pipeline_stage_increases_tokens :
    (runPipeline String.length none "a:b").original = "a:b" ∧
      (runPipeline String.length none "a:b").cleaned = "A: b" ∧
      String.length ((runPipeline String.length none "a:b").original) <
        String.length ((runPipeline String.length none "a:b").cleaned) := by
  decide

end GreenTok
